import Mathlib

/-
Verification of the counter-consistency and cascade-update engine of the
django-machina forum data layer (machina/apps/forum_conversation/abstract_models.py)
against its specification.

Modelling conventions:
- The database is a record of three tables (forums, topics, posts), each a list
  of rows keyed by a natural-number primary key.
- Machine state is passed explicitly; every Django model method becomes a
  function from a `DB` (plus the in-memory instance it was called on) to a `DB`.
- An operation that can let a Python exception escape (the
  `self._last_post.created` dereference in `AbstractTopic.update_trackers`,
  which raises `AttributeError` when the topic has no posts) returns
  `Option DB`; `none` models the exception escaping the call.
- Timestamps are naturals.  `DatedModel` gives topics an `updated` field with
  `auto_now` semantics: the full `save` overwrites it with the save time
  (passed in as `now`), while `_simple_save` explicitly disables `auto_now`
  and writes the row verbatim.
- Django orderings `order_by('created')` / `order_by('-created')` leave the
  relative order of posts with equal `created` unspecified (database
  dependent).  We model them deterministically with the id as tie-break:
  the first post minimises and the last post maximises `(created, id)`
  lexicographically.
- Fields never read by the logic under verification (poster, poster_ip,
  content markup, views_count, type, status, slug/slugify, subscribers,
  update_reason, updated_by, updates_count) are elided from the row types.
-/

namespace Machina

/-- Forum row type: a hierarchy node is a category, a plain forum or a link. -/
inductive ForumType where
  | category : ForumType
  | forum : ForumType
  | link : ForumType
deriving Repr, DecidableEq

/-- Forum row: tree node with aggregate counters (spec section 3). -/
structure Forum where
  id : Nat
  parentId : Option Nat
  ftype : ForumType
  topic_count : Nat
  post_count : Nat
deriving Repr, DecidableEq

/-- Topic row, per `AbstractTopic`: owning forum, mirrored subject/approved,
derived posts_count and updated timestamp (`DatedModel.updated`). -/
structure Topic where
  id : Nat
  forumId : Nat
  subject : String
  approved : Bool
  posts_count : Nat
  updated : Nat
deriving Repr, DecidableEq

/-- Post row, per `AbstractPost`: owning topic, per-post subject and approved
flag, and the `DatedModel.created` timestamp (`auto_now_add`: set at insertion
and never changed afterwards). -/
structure Post where
  id : Nat
  topicId : Nat
  subject : String
  approved : Bool
  created : Nat
deriving Repr, DecidableEq

/-- Database state: the three tables. -/
structure DB where
  forums : List Forum
  topics : List Topic
  posts : List Post
deriving Repr, DecidableEq

/-- Primary-key lookup in a table (Django `Model._default_manager.get(pk=i)`,
returning `none` for `DoesNotExist`). -/
def lookupBy (key : α → Nat) : List α → Nat → Option α
  | [], _ => none
  | x :: xs, i => if key x = i then some x else lookupBy key xs i

/-- Row replacement by primary key (SQL `UPDATE ... WHERE pk = key v`). -/
def replaceBy (key : α → Nat) (v : α) : List α → List α
  | [] => []
  | x :: xs => (if key x = key v then v else x) :: replaceBy key v xs

/-- Row insertion or replacement: Django `Model.save` updates the existing row
when the primary key is present and inserts a fresh row otherwise. -/
def upsertBy (key : α → Nat) (l : List α) (v : α) : List α :=
  match lookupBy key l (key v) with
  | some _ => replaceBy key v l
  | none => l ++ [v]

/-- Row deletion by primary key (SQL `DELETE ... WHERE pk = i`). -/
def removeBy (key : α → Nat) : List α → Nat → List α
  | [], _ => []
  | x :: xs, i => if key x = i then removeBy key xs i else x :: removeBy key xs i

/-- Posts attached to a topic: the reverse relation `topic.posts.all()`. -/
def postsOf : List Post → Nat → List Post
  | [], _ => []
  | p :: ps, tid => if p.topicId = tid then p :: postsOf ps tid else postsOf ps tid

/-- Topics attached to a forum: the reverse relation `forum.topics.all()`. -/
def topicsOf : List Topic → Nat → List Topic
  | [], _ => []
  | t :: ts, fid => if t.forumId = fid then t :: topicsOf ts fid else topicsOf ts fid

/-- Posts whose owning topic lives in a given forum (used by the forum-level
rollup's post counter). -/
def forumPostCount (topics : List Topic) : List Post → Nat → Nat
  | [], _ => 0
  | p :: ps, fid =>
    (match lookupBy Topic.id topics p.topicId with
     | some t => if t.forumId = fid then 1 else 0
     | none => 0) + forumPostCount topics ps fid

/-- Convenience accessors on states. -/
def DB.findForum (db : DB) (i : Nat) : Option Forum := lookupBy Forum.id db.forums i

def DB.findTopic (db : DB) (i : Nat) : Option Topic := lookupBy Topic.id db.topics i

def DB.findPost (db : DB) (i : Nat) : Option Post := lookupBy Post.id db.posts i

def DB.topicPosts (db : DB) (tid : Nat) : List Post := postsOf db.posts tid

/-- Strict lexicographic order on the `(created, id)` sort key of a post. -/
def keyLtP (a b : Post) : Prop :=
  a.created < b.created ∨ (a.created = b.created ∧ a.id < b.id)

/-- Reflexive lexicographic order on the `(created, id)` sort key of a post. -/
def keyLeP (a b : Post) : Prop :=
  a.created < b.created ∨ (a.created = b.created ∧ a.id ≤ b.id)

instance (a b : Post) : Decidable (keyLtP a b) := by
  unfold keyLtP; infer_instance

instance (a b : Post) : Decidable (keyLeP a b) := by
  unfold keyLeP; infer_instance

/-- The earlier of two posts in the `order_by('created')` ordering
(ties on `created` broken by id, see the modelling conventions). -/
def earlierPost (a b : Post) : Post :=
  if keyLtP b a then b else a

/-- The later of two posts in the `order_by('-created')` ordering. -/
def laterPost (a b : Post) : Post :=
  if keyLtP a b then b else a

namespace AbstractTopic

/-- Property `AbstractTopic.first_post`: the first element of
`self.posts.all().order_by('created')`, or `None` when the topic has no posts.
The source memoizes the result on the instance (`self._first_post`); the memo
cache of a freshly loaded instance is empty, so the pure accessor models the
value it computes. -/
def first_post (db : DB) (tid : Nat) : Option Post :=
  match db.topicPosts tid with
  | [] => none
  | p :: ps => some (ps.foldl earlierPost p)

/-- Property `AbstractTopic.last_post`: the first element of
`self.posts.all().order_by('-created')`, or `None` when the topic has no
posts; memoized like `first_post`. -/
def last_post (db : DB) (tid : Nat) : Option Post :=
  match db.topicPosts tid with
  | [] => none
  | p :: ps => some (ps.foldl laterPost p)

/-- Method `AbstractTopic.clean` (lines 117-120): raises `ValidationError`
when the owning forum is a category or a link.  `Except.error` models the
raised `ValidationError`; a dangling forum reference surfaces as the
`DoesNotExist` the attribute access would raise. -/
def clean (db : DB) (t : Topic) : Except String Unit :=
  match db.findForum t.forumId with
  | none => Except.error "Forum matching query does not exist."
  | some f =>
    if f.ftype = ForumType.category ∨ f.ftype = ForumType.link then
      Except.error "A topic can not be associated with a category or a link forum"
    else
      Except.ok ()

/-- Method `AbstractTopic._simple_save` (lines 143-156): calls the plain model
save, bypassing the forum-change checks of `AbstractTopic.save`, with
`auto_now` disabled on the `updated` field, so the row is written verbatim:
no tracker logic runs and `updated` keeps whatever value the caller computed. -/
def _simple_save (db : DB) (t : Topic) : DB :=
  { db with topics := upsertBy Topic.id db.topics t }

end AbstractTopic

/-- Counter values the forum-level rollup writes for one forum: `topic_count`
is the number of topics hosted by the forum and `post_count` the number of
posts in those topics. -/
def recomputedForum (db : DB) (fid : Nat) (f : Forum) : Forum :=
  { f with topic_count := (topicsOf db.topics fid).length,
           post_count := forumPostCount db.topics db.posts fid }

/-- Modelled from the spec: `Forum.update_trackers` (the Cascade Propagator,
spec section 4.3) lives in the forum app, which is not under src/.  Per the
spec it recomputes the forum's own topic/post aggregate counters from the
source-of-truth child records.  This helper performs the single-node
recomputation; counters of a forum are `topic_count` (topics hosted by the
forum) and `post_count` (posts of those topics). -/
def forumRecompute (db : DB) (fid : Nat) : DB :=
  match db.findForum fid with
  | none => db
  | some f =>
    { db with forums := replaceBy Forum.id (recomputedForum db fid f) db.forums }

/-- Modelled from the spec: the ancestor-chain walk of the Cascade Propagator
(spec section 4.3): "given a forum, recompute its own topic/post aggregate
counters, then repeat for its parent, continuing to the root.  Termination:
stops at a node with no parent."  Structured as an explicit fuel-bounded loop
over parent references (spec section 9, design note 4). -/
def forumUpdateTrackersAux : Nat → DB → Nat → DB
  | 0, db, _ => db
  | Nat.succ fuel, db, fid =>
    let db1 := forumRecompute db fid
    match db1.findForum fid with
    | none => db1
    | some f =>
      match f.parentId with
      | none => db1
      | some pid => forumUpdateTrackersAux fuel db1 pid

/-- Modelled from the spec: `Forum.update_trackers` entry point.  The fuel
bound exceeds the number of forums, so a well-formed (acyclic) parent chain is
always walked to the root. -/
def forumUpdateTrackers (db : DB) (fid : Nat) : DB :=
  forumUpdateTrackersAux (db.forums.length + 1) db fid

namespace AbstractTopic

/-- Method `AbstractTopic.update_trackers` (lines 162-173), called on the
in-memory instance `t` (which may carry unsaved mirrored-field changes made by
`AbstractPost.save`):

    self.posts_count = self.posts.count()
    posts = self.posts.all().order_by('-created')
    self._last_post = posts[0] if posts.exists() else None
    self.updated = self._last_post.created
    self._simple_save()
    self.forum.update_trackers()

When the topic has no posts, `self._last_post` is `None` and the read of
`.created` raises `AttributeError` before anything is persisted: `none`. -/
def update_trackers (db : DB) (t : Topic) : Option DB :=
  let cnt := (db.topicPosts t.id).length
  match last_post db t.id with
  | none => none
  | some lp =>
    let t1 := { t with posts_count := cnt, updated := lp.created }
    let db1 := _simple_save db t1
    some (forumUpdateTrackers db1 t1.forumId)

/-- Method `AbstractTopic.delete` (lines 158-160): the model delete (which
cascades to the topic's posts, the default `on_delete` behaviour of the
`Post.topic` foreign key) followed by `self.forum.update_trackers()`.
Deleting a topic that is not persisted gives `none`. -/
def delete (db : DB) (tid : Nat) : Option DB :=
  match db.findTopic tid with
  | none => none
  | some t =>
    let db1 : DB :=
      { db with topics := removeBy Topic.id db.topics tid,
                posts := (db.posts.filter (fun p => decide (p.topicId ≠ tid))) }
    some (forumUpdateTrackers db1 t.forumId)

/-- Method `AbstractTopic.save` (lines 122-141), called on the in-memory
instance `t` at wall-clock time `now`:

    old_instance = None
    if self.pk:
        old_instance = self.__class__._default_manager.get(pk=self.pk)
    self.slug = slugify(force_text(self.subject))   # slug elided from the model
    super(AbstractTopic, self).save(*args, **kwargs)
    if old_instance and old_instance.forum != self.forum:
        self.update_trackers()
        if old_instance.forum:
            old_forum = refresh(old_instance.forum)
            old_forum.update_trackers()

`self.pk` being set is modelled as the id being present in the table.  The
plain model save has `auto_now` enabled, so it overwrites `updated` with the
save time.  The forum foreign key is non-nullable, so `old_instance.forum` is
always truthy for a persisted row. -/
def save (db : DB) (t : Topic) (now : Nat) : Option DB :=
  let old := db.findTopic t.id
  let t1 := { t with updated := now }
  let db1 : DB := { db with topics := upsertBy Topic.id db.topics t1 }
  match old with
  | none => some db1
  | some o =>
    if o.forumId ≠ t1.forumId then
      match update_trackers db1 t1 with
      | none => none
      | some db2 => some (forumUpdateTrackers db2 o.forumId)
    else
      some db1

end AbstractTopic

namespace AbstractPost

/-- Property `AbstractPost.is_topic_head` (lines 219-221):
`self.topic.first_post.id == self.id`.  On a topic with no posts the source
would dereference `None`; the call sites below never do that, and the model
returns `false` there. -/
def is_topic_head (db : DB) (p : Post) : Bool :=
  match AbstractTopic.first_post db p.topicId with
  | some fp => decide (fp.id = p.id)
  | none => false

/-- Property `AbstractPost.is_topic_tail` (lines 223-225):
`self.topic.last_post.id == self.id`. -/
def is_topic_tail (db : DB) (p : Post) : Bool :=
  match AbstractTopic.last_post db p.topicId with
  | some lp => decide (lp.id = p.id)
  | none => false

/-- Property `AbstractPost.position` (lines 227-230):
`self.topic.posts.filter(Q(created__lt=self.created) | Q(id=self.id)).count()`. -/
def position (db : DB) (p : Post) : Nat :=
  ((db.topicPosts p.topicId).filter
    (fun q => decide (q.created < p.created) || decide (q.id = p.id))).length

/-- Method `AbstractPost.save` (lines 232-243), called on the instance `p`
(`p.created` carries the `auto_now_add` value for an insert, and the unchanged
stored value for an update):

    super(AbstractPost, self).save(*args, **kwargs)
    if self.is_topic_head:
        if self.subject != self.topic.subject or self.approved != self.topic.approved:
            self.topic.subject = self.subject
            self.topic.approved = self.approved
    self.topic.update_trackers()

The mirrored subject/approved fields are changed only on the in-memory topic
instance; they reach the table through the `_simple_save` inside
`update_trackers`, not through a save of their own. -/
def save (db : DB) (p : Post) : Option DB :=
  let db1 : DB := { db with posts := upsertBy Post.id db.posts p }
  match db1.findTopic p.topicId with
  | none => none
  | some t =>
    let t1 :=
      if is_topic_head db1 p then
        if p.subject ≠ t.subject ∨ p.approved ≠ t.approved then
          { t with subject := p.subject, approved := p.approved }
        else t
      else t
    AbstractTopic.update_trackers db1 t1

/-- Method `AbstractPost.delete` (lines 245-252):

    if self.is_topic_head and self.is_topic_tail:
        self.topic.delete()
    else:
        super(AbstractPost, self).delete(using)
        self.topic.update_trackers()
-/
def delete (db : DB) (p : Post) : Option DB :=
  if is_topic_head db p ∧ is_topic_tail db p then
    AbstractTopic.delete db p.topicId
  else
    let db1 : DB := { db with posts := removeBy Post.id db.posts p.id }
    match db1.findTopic p.topicId with
    | none => none
    | some t => AbstractTopic.update_trackers db1 t

end AbstractPost

/-- Modelled from the spec: `SearchForm` validation
(machina/apps/forum_search/forms.py is not under src/; only its tests are).
Per the test `test_cannot_search_forum_posts_if_the_form_is_not_valid`, a
`search_forums` selection naming a nonexistent forum id fails form
validation. -/
def formValid (db : DB) (search_forums : List Nat) : Bool :=
  search_forums.all (fun fid => (db.findForum fid).isSome)

/-- Modelled from the spec: the permitted-forum scope of a search (spec
section 4.4): the forums the requesting identity can read, intersected with
the explicit `search_forums` restriction when one is given; ids the user
cannot read are dropped, not treated as an error. -/
def permittedForums (db : DB) (canRead : Nat → Bool) (search_forums : List Nat) : List Nat :=
  let readable := (db.forums.filter (fun f => canRead f.id)).map Forum.id
  if search_forums.isEmpty then readable
  else readable.filter (fun fid => search_forums.contains fid)

/-- Modelled from the spec: `SearchForm.search` (spec section 4.4).  The
free-text matching itself is performed by the index backend, whose
tokenization is out of scope (spec section 1); it is taken as an abstract
predicate `matchq` on posts.  An invalid form yields the empty result set
(haystack returns an `EmptySearchQuerySet`); otherwise the hits are filtered
to posts whose owning forum is in the permitted scope.  The function is total:
no error is ever raised. -/
def searchResults (db : DB) (canRead : Nat → Bool) (matchq : Post → Bool)
    (search_forums : List Nat) : List Post :=
  if formValid db search_forums then
    (db.posts.filter matchq).filter (fun p =>
      match db.findTopic p.topicId with
      | some t => (permittedForums db canRead search_forums).contains t.forumId
      | none => false)
  else
    []

/-! Basic lemmas about the table primitives. -/

theorem lookupBy_nil {key : α → Nat} {i : Nat} : lookupBy key ([] : List α) i = none := rfl

theorem lookupBy_cons {key : α → Nat} {a : α} {as : List α} {i : Nat} :
    lookupBy key (a :: as) i = if key a = i then some a else lookupBy key as i := rfl

theorem replaceBy_nil {key : α → Nat} {v : α} : replaceBy key v ([] : List α) = [] := rfl

theorem replaceBy_cons {key : α → Nat} {v a : α} {as : List α} :
    replaceBy key v (a :: as) = (if key a = key v then v else a) :: replaceBy key v as := rfl

theorem removeBy_nil {key : α → Nat} {i : Nat} : removeBy key ([] : List α) i = [] := rfl

theorem removeBy_cons {key : α → Nat} {a : α} {as : List α} {i : Nat} :
    removeBy key (a :: as) i =
      if key a = i then removeBy key as i else a :: removeBy key as i := rfl

theorem lookupBy_mem_key {key : α → Nat} {l : List α} {i : Nat} {x : α}
    (h : lookupBy key l i = some x) : x ∈ l ∧ key x = i := by
  induction l with
  | nil => rw [lookupBy_nil] at h; cases h
  | cons a as ih =>
    rw [lookupBy_cons] at h
    split at h
    · cases h
      exact ⟨List.mem_cons_self _ _, by assumption⟩
    · rcases ih h with ⟨hm, hk⟩
      exact ⟨List.mem_cons_of_mem _ hm, hk⟩

theorem lookupBy_eq_none_iff {key : α → Nat} {l : List α} {i : Nat} :
    lookupBy key l i = none ↔ ∀ x ∈ l, key x ≠ i := by
  induction l with
  | nil => exact ⟨fun _ x hx => absurd hx (List.not_mem_nil x), fun _ => rfl⟩
  | cons a as ih =>
    rw [lookupBy_cons]
    split
    · constructor
      · intro hsome
        cases hsome
      · intro hall
        exact absurd (by assumption) (hall a (List.mem_cons_self _ _))
    · rw [ih]
      constructor
      · intro hall x hx
        rcases List.mem_cons.mp hx with rfl | hx'
        · assumption
        · exact hall x hx'
      · intro hall x hx
        exact hall x (List.mem_cons_of_mem _ hx)

theorem lookupBy_isSome_of_mem {key : α → Nat} {l : List α} {x : α}
    (hx : x ∈ l) : (lookupBy key l (key x)).isSome = true := by
  cases h : lookupBy key l (key x) with
  | some _ => rfl
  | none => exact absurd rfl (lookupBy_eq_none_iff.mp h x hx)

theorem lookupBy_of_mem_nodup {key : α → Nat} {l : List α} {x : α}
    (hn : (l.map key).Nodup) (hx : x ∈ l) : lookupBy key l (key x) = some x := by
  induction l with
  | nil => cases hx
  | cons a as ih =>
    rw [List.map_cons, List.nodup_cons] at hn
    rw [lookupBy_cons]
    rcases List.mem_cons.mp hx with rfl | hx' 
    · rw [if_pos rfl]
    · by_cases ha : key a = key x
      · exact absurd (ha ▸ List.mem_map_of_mem key hx') hn.1
      · rw [if_neg ha]
        exact ih hn.2 hx'

theorem mem_of_nodup_key_eq {key : α → Nat} {l : List α} {x y : α}
    (hn : (l.map key).Nodup) (hx : x ∈ l) (hy : y ∈ l) (hk : key x = key y) : x = y := by
  have h1 := lookupBy_of_mem_nodup hn hx
  have h2 := lookupBy_of_mem_nodup hn hy
  rw [hk, h2] at h1
  cases h1
  rfl

theorem map_key_replaceBy {key : α → Nat} {v : α} {l : List α} :
    (replaceBy key v l).map key = l.map key := by
  induction l with
  | nil => rfl
  | cons a as ih =>
    rw [replaceBy_cons, List.map_cons, List.map_cons, ih]
    split
    · rename_i h; rw [← h]
    · rfl

theorem mem_replaceBy {key : α → Nat} {v x : α} {l : List α}
    (h : x ∈ replaceBy key v l) : x = v ∨ (x ∈ l ∧ key x ≠ key v) := by
  induction l with
  | nil => cases h
  | cons a as ih =>
    rw [replaceBy_cons] at h
    rcases List.mem_cons.mp h with h1 | h2
    · split at h1
      · exact Or.inl h1
      · rename_i hne
        subst h1
        exact Or.inr ⟨List.mem_cons_self _ _, hne⟩
    · rcases ih h2 with h3 | ⟨h3, h4⟩
      · exact Or.inl h3
      · exact Or.inr ⟨List.mem_cons_of_mem _ h3, h4⟩

theorem mem_replaceBy_of_ne {key : α → Nat} {v x : α} {l : List α}
    (hx : x ∈ l) (hne : key x ≠ key v) : x ∈ replaceBy key v l := by
  induction l with
  | nil => cases hx
  | cons a as ih =>
    rw [replaceBy_cons]
    rcases List.mem_cons.mp hx with rfl | hx' 
    · rw [if_neg hne]
      exact List.mem_cons_self _ _
    · exact List.mem_cons_of_mem _ (ih hx')

theorem lookupBy_replaceBy_self {key : α → Nat} {v : α} {l : List α} {x : α}
    (h : lookupBy key l (key v) = some x) :
    lookupBy key (replaceBy key v l) (key v) = some v := by
  induction l with
  | nil => rw [lookupBy_nil] at h; cases h
  | cons a as ih =>
    rw [lookupBy_cons] at h
    rw [replaceBy_cons]
    by_cases ha : key a = key v
    · rw [if_pos ha, lookupBy_cons, if_pos rfl]
    · rw [if_neg ha] at h
      rw [if_neg ha, lookupBy_cons, if_neg ha]
      exact ih h

theorem lookupBy_replaceBy_ne {key : α → Nat} {v : α} {l : List α} {i : Nat}
    (hne : i ≠ key v) : lookupBy key (replaceBy key v l) i = lookupBy key l i := by
  induction l with
  | nil => rfl
  | cons a as ih =>
    rw [replaceBy_cons, lookupBy_cons, lookupBy_cons]
    by_cases ha : key a = key v
    · rw [if_pos ha, if_neg (fun h => hne (by rw [← h])), if_neg (by rw [ha]; exact fun h => hne h.symm)]
      exact ih
    · rw [if_neg ha]
      split
      · rfl
      · exact ih

theorem lookupBy_append {key : α → Nat} {l r : List α} {i : Nat} :
    lookupBy key (l ++ r) i =
      match lookupBy key l i with
      | some x => some x
      | none => lookupBy key r i := by
  induction l with
  | nil => rfl
  | cons a as ih =>
    rw [List.cons_append, lookupBy_cons, lookupBy_cons]
    split
    · rfl
    · exact ih

theorem lookupBy_upsertBy_self {key : α → Nat} {l : List α} {v : α} :
    lookupBy key (upsertBy key l v) (key v) = some v := by
  rw [upsertBy]
  cases h : lookupBy key l (key v) with
  | some x => exact lookupBy_replaceBy_self h
  | none =>
    rw [lookupBy_append, h, lookupBy_cons, if_pos rfl]

theorem lookupBy_upsertBy_ne {key : α → Nat} {l : List α} {v : α} {i : Nat}
    (hne : i ≠ key v) : lookupBy key (upsertBy key l v) i = lookupBy key l i := by
  rw [upsertBy]
  cases h : lookupBy key l (key v) with
  | some x => exact lookupBy_replaceBy_ne hne
  | none =>
    rw [lookupBy_append]
    cases h2 : lookupBy key l i with
    | some x => rfl
    | none =>
      rw [lookupBy_cons, if_neg (fun hh => hne hh.symm), lookupBy_nil]

theorem mem_upsertBy {key : α → Nat} {l : List α} {v x : α}
    (h : x ∈ upsertBy key l v) : x = v ∨ (x ∈ l ∧ key x ≠ key v) := by
  rw [upsertBy] at h
  split at h
  · exact mem_replaceBy h
  · rename_i hnone
    rcases List.mem_append.mp h with h1 | h2
    · exact Or.inr ⟨h1, lookupBy_eq_none_iff.mp hnone x h1⟩
    · exact Or.inl (List.mem_singleton.mp h2)

theorem self_mem_upsertBy {key : α → Nat} {l : List α} {v : α} :
    v ∈ upsertBy key l v :=
  (lookupBy_mem_key (@lookupBy_upsertBy_self _ key l v)).1

theorem mem_upsertBy_of_ne {key : α → Nat} {l : List α} {v x : α}
    (hx : x ∈ l) (hne : key x ≠ key v) : x ∈ upsertBy key l v := by
  rw [upsertBy]
  split
  · exact mem_replaceBy_of_ne hx hne
  · exact List.mem_append_left _ hx

theorem map_key_upsertBy {key : α → Nat} {l : List α} {v : α} :
    (upsertBy key l v).map key =
      match lookupBy key l (key v) with
      | some _ => l.map key
      | none => l.map key ++ [key v] := by
  rw [upsertBy]
  cases h : lookupBy key l (key v) with
  | some x => exact map_key_replaceBy
  | none => simp

theorem nodup_map_key_upsertBy {key : α → Nat} {l : List α} {v : α}
    (hn : (l.map key).Nodup) : ((upsertBy key l v).map key).Nodup := by
  rw [map_key_upsertBy]
  cases h : lookupBy key l (key v) with
  | some x => exact hn
  | none =>
    rw [List.nodup_append]
    refine ⟨hn, List.nodup_singleton _, ?_⟩
    intro a ha hb
    rw [List.mem_singleton] at hb
    subst hb
    rcases List.mem_map.mp ha with ⟨y, hy, hky⟩
    exact lookupBy_eq_none_iff.mp h y hy hky

theorem lookupBy_removeBy_self {key : α → Nat} {l : List α} {i : Nat} :
    lookupBy key (removeBy key l i) i = none := by
  induction l with
  | nil => rfl
  | cons a as ih =>
    rw [removeBy_cons]
    split
    · exact ih
    · rw [lookupBy_cons, if_neg (by assumption)]
      exact ih

theorem lookupBy_removeBy_ne {key : α → Nat} {l : List α} {i j : Nat}
    (hne : i ≠ j) : lookupBy key (removeBy key l j) i = lookupBy key l i := by
  induction l with
  | nil => rfl
  | cons a as ih =>
    rw [removeBy_cons, lookupBy_cons]
    split
    · rename_i ha
      rw [if_neg (by rw [ha]; exact fun h => hne h.symm)]
      exact ih
    · rw [lookupBy_cons]
      split
      · rfl
      · exact ih

theorem mem_removeBy {key : α → Nat} {l : List α} {i : Nat} {x : α}
    (h : x ∈ removeBy key l i) : x ∈ l ∧ key x ≠ i := by
  induction l with
  | nil => cases h
  | cons a as ih =>
    rw [removeBy_cons] at h
    split at h
    · rcases ih h with ⟨h1, h2⟩
      exact ⟨List.mem_cons_of_mem _ h1, h2⟩
    · rcases List.mem_cons.mp h with rfl | h' 
      · exact ⟨List.mem_cons_self _ _, by assumption⟩
      · rcases ih h' with ⟨h1, h2⟩
        exact ⟨List.mem_cons_of_mem _ h1, h2⟩

theorem mem_removeBy_of_ne {key : α → Nat} {l : List α} {i : Nat} {x : α}
    (hx : x ∈ l) (hne : key x ≠ i) : x ∈ removeBy key l i := by
  induction l with
  | nil => cases hx
  | cons a as ih =>
    rw [removeBy_cons]
    rcases List.mem_cons.mp hx with rfl | hx' 
    · rw [if_neg hne]
      exact List.mem_cons_self _ _
    · split
      · exact ih hx'
      · exact List.mem_cons_of_mem _ (ih hx')

/-! Membership lemmas for the reverse relations. -/

theorem mem_postsOf {l : List Post} {tid : Nat} {q : Post} :
    q ∈ postsOf l tid ↔ q ∈ l ∧ q.topicId = tid := by
  induction l with
  | nil => simp [postsOf]
  | cons p ps ih =>
    rw [postsOf]
    split
    · rename_i hp
      rw [List.mem_cons, ih, List.mem_cons]
      constructor
      · rintro (rfl | ⟨h1, h2⟩)
        · exact ⟨Or.inl rfl, hp⟩
        · exact ⟨Or.inr h1, h2⟩
      · rintro ⟨rfl | h1, h2⟩
        · exact Or.inl rfl
        · exact Or.inr ⟨h1, h2⟩
    · rename_i hp
      rw [ih, List.mem_cons]
      constructor
      · rintro ⟨h1, h2⟩
        exact ⟨Or.inr h1, h2⟩
      · rintro ⟨rfl | h1, h2⟩
        · exact absurd h2 hp
        · exact ⟨h1, h2⟩

theorem mem_topicsOf {l : List Topic} {fid : Nat} {t : Topic} :
    t ∈ topicsOf l fid ↔ t ∈ l ∧ t.forumId = fid := by
  induction l with
  | nil => simp [topicsOf]
  | cons a as ih =>
    rw [topicsOf]
    split
    · rename_i hp
      rw [List.mem_cons, ih, List.mem_cons]
      constructor
      · rintro (rfl | ⟨h1, h2⟩)
        · exact ⟨Or.inl rfl, hp⟩
        · exact ⟨Or.inr h1, h2⟩
      · rintro ⟨rfl | h1, h2⟩
        · exact Or.inl rfl
        · exact Or.inr ⟨h1, h2⟩
    · rename_i hp
      rw [ih, List.mem_cons]
      constructor
      · rintro ⟨h1, h2⟩
        exact ⟨Or.inr h1, h2⟩
      · rintro ⟨rfl | h1, h2⟩
        · exact absurd h2 hp
        · exact ⟨h1, h2⟩

/-! Order lemmas for the `(created, id)` post sort key. -/

theorem keyLeP_refl (a : Post) : keyLeP a a := Or.inr ⟨rfl, Nat.le_refl _⟩

theorem keyLtP_le {a b : Post} (h : keyLtP a b) : keyLeP a b := by
  unfold keyLtP at h
  unfold keyLeP
  omega

theorem keyLeP_trans {a b c : Post} (h1 : keyLeP a b) (h2 : keyLeP b c) : keyLeP a c := by
  unfold keyLeP at h1 h2 ⊢
  omega

theorem keyLeP_antisymm_key {a b : Post} (h1 : keyLeP a b) (h2 : keyLeP b a) :
    a.created = b.created ∧ a.id = b.id := by
  unfold keyLeP at h1 h2
  omega

theorem keyLeP_of_not_keyLtP {a b : Post} (h : ¬ keyLtP a b) : keyLeP b a := by
  unfold keyLtP at h
  unfold keyLeP
  omega

theorem laterPost_cases (a b : Post) : laterPost a b = a ∨ laterPost a b = b := by
  unfold laterPost
  split
  · exact Or.inr rfl
  · exact Or.inl rfl

theorem keyLeP_laterPost_left (a b : Post) : keyLeP a (laterPost a b) := by
  unfold laterPost
  split
  · exact keyLtP_le (by assumption)
  · exact keyLeP_refl a

theorem keyLeP_laterPost_right (a b : Post) : keyLeP b (laterPost a b) := by
  unfold laterPost
  split
  · exact keyLeP_refl b
  · exact keyLeP_of_not_keyLtP (by assumption)

theorem earlierPost_cases (a b : Post) : earlierPost a b = a ∨ earlierPost a b = b := by
  unfold earlierPost
  split
  · exact Or.inr rfl
  · exact Or.inl rfl

theorem keyLeP_earlierPost_left (a b : Post) : keyLeP (earlierPost a b) a := by
  unfold earlierPost
  split
  · exact keyLtP_le (by assumption)
  · exact keyLeP_refl a

theorem keyLeP_earlierPost_right (a b : Post) : keyLeP (earlierPost a b) b := by
  unfold earlierPost
  split
  · exact keyLeP_refl b
  · exact keyLeP_of_not_keyLtP (by assumption)

theorem foldl_laterPost_mem (a : Post) (l : List Post) :
    List.foldl laterPost a l ∈ a :: l := by
  induction l generalizing a with
  | nil => exact List.mem_singleton.mpr rfl
  | cons b bs ih =>
    rw [List.foldl_cons]
    rcases List.mem_cons.mp (ih (laterPost a b)) with h1 | h1
    · rw [h1]
      rcases laterPost_cases a b with h2 | h2 <;> rw [h2]
      · exact List.mem_cons_self _ _
      · exact List.mem_cons_of_mem _ (List.mem_cons_self _ _)
    · exact List.mem_cons_of_mem _ (List.mem_cons_of_mem _ h1)

theorem keyLeP_foldl_laterPost_init (a : Post) (l : List Post) :
    keyLeP a (List.foldl laterPost a l) := by
  induction l generalizing a with
  | nil => exact keyLeP_refl a
  | cons b bs ih =>
    rw [List.foldl_cons]
    exact keyLeP_trans (keyLeP_laterPost_left a b) (ih (laterPost a b))

theorem keyLeP_foldl_laterPost_mem {q : Post} (a : Post) {l : List Post}
    (hq : q ∈ l) : keyLeP q (List.foldl laterPost a l) := by
  induction l generalizing a with
  | nil => cases hq
  | cons b bs ih =>
    rw [List.foldl_cons]
    rcases List.mem_cons.mp hq with rfl | hq' 
    · exact keyLeP_trans (keyLeP_laterPost_right a q) (keyLeP_foldl_laterPost_init _ bs)
    · exact ih (laterPost a b) hq'

theorem foldl_earlierPost_mem (a : Post) (l : List Post) :
    List.foldl earlierPost a l ∈ a :: l := by
  induction l generalizing a with
  | nil => exact List.mem_singleton.mpr rfl
  | cons b bs ih =>
    rw [List.foldl_cons]
    rcases List.mem_cons.mp (ih (earlierPost a b)) with h1 | h1
    · rw [h1]
      rcases earlierPost_cases a b with h2 | h2 <;> rw [h2]
      · exact List.mem_cons_self _ _
      · exact List.mem_cons_of_mem _ (List.mem_cons_self _ _)
    · exact List.mem_cons_of_mem _ (List.mem_cons_of_mem _ h1)

theorem keyLeP_foldl_earlierPost_init (a : Post) (l : List Post) :
    keyLeP (List.foldl earlierPost a l) a := by
  induction l generalizing a with
  | nil => exact keyLeP_refl a
  | cons b bs ih =>
    rw [List.foldl_cons]
    exact keyLeP_trans (ih (earlierPost a b)) (keyLeP_earlierPost_left a b)

theorem keyLeP_foldl_earlierPost_mem {q : Post} (a : Post) {l : List Post}
    (hq : q ∈ l) : keyLeP (List.foldl earlierPost a l) q := by
  induction l generalizing a with
  | nil => cases hq
  | cons b bs ih =>
    rw [List.foldl_cons]
    rcases List.mem_cons.mp hq with rfl | hq' 
    · exact keyLeP_trans (keyLeP_foldl_earlierPost_init _ bs) (keyLeP_earlierPost_right a q)
    · exact ih (earlierPost a b) hq'

/-! Characterisation of the `first_post` / `last_post` accessors. -/

theorem last_post_spec {db : DB} {tid : Nat} {lp : Post}
    (h : AbstractTopic.last_post db tid = some lp) :
    lp ∈ db.topicPosts tid ∧ ∀ q ∈ db.topicPosts tid, keyLeP q lp := by
  unfold AbstractTopic.last_post at h
  cases hl : db.topicPosts tid with
  | nil => rw [hl] at h; cases h
  | cons p ps =>
    rw [hl] at h
    cases h
    refine ⟨foldl_laterPost_mem p ps, ?_⟩
    intro q hq
    rcases List.mem_cons.mp hq with rfl | hq' 
    · exact keyLeP_foldl_laterPost_init q ps
    · exact keyLeP_foldl_laterPost_mem p hq'

theorem last_post_eq_none_iff {db : DB} {tid : Nat} :
    AbstractTopic.last_post db tid = none ↔ db.topicPosts tid = [] := by
  unfold AbstractTopic.last_post
  cases hl : db.topicPosts tid with
  | nil => simp
  | cons p ps => simp

theorem first_post_spec {db : DB} {tid : Nat} {fp : Post}
    (h : AbstractTopic.first_post db tid = some fp) :
    fp ∈ db.topicPosts tid ∧ ∀ q ∈ db.topicPosts tid, keyLeP fp q := by
  unfold AbstractTopic.first_post at h
  cases hl : db.topicPosts tid with
  | nil => rw [hl] at h; cases h
  | cons p ps =>
    rw [hl] at h
    cases h
    refine ⟨foldl_earlierPost_mem p ps, ?_⟩
    intro q hq
    rcases List.mem_cons.mp hq with rfl | hq' 
    · exact keyLeP_foldl_earlierPost_init q ps
    · exact keyLeP_foldl_earlierPost_mem p hq'

theorem first_post_eq_none_iff {db : DB} {tid : Nat} :
    AbstractTopic.first_post db tid = none ↔ db.topicPosts tid = [] := by
  unfold AbstractTopic.first_post
  cases hl : db.topicPosts tid with
  | nil => simp
  | cons p ps => simp

theorem first_post_isSome {db : DB} {tid : Nat} (h : db.topicPosts tid ≠ []) :
    ∃ fp, AbstractTopic.first_post db tid = some fp := by
  cases hf : AbstractTopic.first_post db tid with
  | none => exact absurd (first_post_eq_none_iff.mp hf) h
  | some fp => exact ⟨fp, rfl⟩

theorem last_post_isSome {db : DB} {tid : Nat} (h : db.topicPosts tid ≠ []) :
    ∃ lp, AbstractTopic.last_post db tid = some lp := by
  cases hf : AbstractTopic.last_post db tid with
  | none => exact absurd (last_post_eq_none_iff.mp hf) h
  | some lp => exact ⟨lp, rfl⟩

/-! Frame lemmas: the cascade walk touches only forum counters, and
`_simple_save` touches only the saved topic row. -/

theorem forumRecompute_topics (db : DB) (fid : Nat) :
    (forumRecompute db fid).topics = db.topics := by
  unfold forumRecompute
  split
  · rfl
  · rfl

theorem forumRecompute_posts (db : DB) (fid : Nat) :
    (forumRecompute db fid).posts = db.posts := by
  unfold forumRecompute
  split
  · rfl
  · rfl

theorem forumRecompute_findForum_ne {db : DB} {fid i : Nat} (hne : i ≠ fid) :
    (forumRecompute db fid).findForum i = db.findForum i := by
  unfold forumRecompute
  split
  · rfl
  · rename_i f hf
    have hfid : f.id = fid := (lookupBy_mem_key hf).2
    show lookupBy Forum.id (replaceBy Forum.id _ db.forums) i = _
    rw [lookupBy_replaceBy_ne]
    · rfl
    · show i ≠ f.id
      rw [hfid]
      exact hne

theorem forumRecompute_findForum_self {db : DB} {fid : Nat} {f : Forum}
    (hf : db.findForum fid = some f) :
    (forumRecompute db fid).findForum fid = some (recomputedForum db fid f) := by
  have hfid : f.id = fid := (lookupBy_mem_key hf).2
  have hid1 : Forum.id (recomputedForum db fid f) = fid := hfid
  unfold forumRecompute
  rw [hf]
  show lookupBy Forum.id (replaceBy Forum.id (recomputedForum db fid f) db.forums) fid = _
  have h2 := @lookupBy_replaceBy_self _ Forum.id (recomputedForum db fid f)
    db.forums f (by rw [hid1]; exact hf)
  rw [hid1] at h2
  exact h2

theorem forumRecompute_findForum_isSome (db : DB) (fid i : Nat) :
    ((forumRecompute db fid).findForum i).isSome = (db.findForum i).isSome := by
  by_cases hi : i = fid
  · subst hi
    cases hf : db.findForum i with
    | none =>
      unfold forumRecompute
      rw [hf]
      show (db.findForum i).isSome = (none : Option Forum).isSome
      rw [hf]
    | some f =>
      rw [forumRecompute_findForum_self hf]
      rfl
  · rw [forumRecompute_findForum_ne hi]

theorem forumUpdateTrackersAux_topics :
    ∀ fuel (db : DB) (g : Nat), (forumUpdateTrackersAux fuel db g).topics = db.topics := by
  intro fuel
  induction fuel with
  | zero => intro db g; rfl
  | succ n ih =>
    intro db g
    simp only [forumUpdateTrackersAux]
    split
    · exact forumRecompute_topics db g
    · split
      · exact forumRecompute_topics db g
      · rw [ih]
        exact forumRecompute_topics db g

theorem forumUpdateTrackersAux_posts :
    ∀ fuel (db : DB) (g : Nat), (forumUpdateTrackersAux fuel db g).posts = db.posts := by
  intro fuel
  induction fuel with
  | zero => intro db g; rfl
  | succ n ih =>
    intro db g
    simp only [forumUpdateTrackersAux]
    split
    · exact forumRecompute_posts db g
    · split
      · exact forumRecompute_posts db g
      · rw [ih]
        exact forumRecompute_posts db g

theorem forumUpdateTrackersAux_findForum_isSome :
    ∀ fuel (db : DB) (g i : Nat),
      ((forumUpdateTrackersAux fuel db g).findForum i).isSome = (db.findForum i).isSome := by
  intro fuel
  induction fuel with
  | zero => intro db g i; rfl
  | succ n ih =>
    intro db g i
    simp only [forumUpdateTrackersAux]
    split
    · exact forumRecompute_findForum_isSome db g i
    · split
      · exact forumRecompute_findForum_isSome db g i
      · rw [ih]
        exact forumRecompute_findForum_isSome db g i

theorem forumUpdateTrackers_topics (db : DB) (g : Nat) :
    (forumUpdateTrackers db g).topics = db.topics :=
  forumUpdateTrackersAux_topics _ db g

theorem forumUpdateTrackers_posts (db : DB) (g : Nat) :
    (forumUpdateTrackers db g).posts = db.posts :=
  forumUpdateTrackersAux_posts _ db g

theorem forumUpdateTrackers_findForum_isSome (db : DB) (g i : Nat) :
    ((forumUpdateTrackers db g).findForum i).isSome = (db.findForum i).isSome :=
  forumUpdateTrackersAux_findForum_isSome _ db g i

/-! The cascade walk leaves the start forum's topic counter at the value
recomputed from the current topic table: once written, every later visit of
the same forum (even along a cyclic parent chain) rewrites the same value,
because the walk never changes the topic table. -/

theorem forumUpdateTrackersAux_keeps_count {f c : Nat} :
    ∀ fuel (db : DB) (g : Nat),
      (∃ fo, db.findForum f = some fo ∧ fo.topic_count = c) →
      c = (topicsOf db.topics f).length →
      ∃ fo, (forumUpdateTrackersAux fuel db g).findForum f = some fo ∧ fo.topic_count = c := by
  intro fuel
  induction fuel with
  | zero => intro db g h _; exact h
  | succ n ih =>
    intro db g h hc
    have hstep : ∃ fo, (forumRecompute db g).findForum f = some fo ∧ fo.topic_count = c := by
      by_cases hgf : g = f
      · subst hgf
        rcases h with ⟨fo, hfo, _⟩
        exact ⟨_, forumRecompute_findForum_self hfo, hc.symm⟩
      · rcases h with ⟨fo, hfo, hfc⟩
        refine ⟨fo, ?_, hfc⟩
        rw [forumRecompute_findForum_ne (fun hh => hgf hh.symm)]
        exact hfo
    simp only [forumUpdateTrackersAux]
    split
    · exact hstep
    · split
      · exact hstep
      · exact ih _ _ hstep (by rw [forumRecompute_topics]; exact hc)

theorem forumUpdateTrackers_recomputes_count {db : DB} {f : Nat} {fo : Forum}
    (hf : db.findForum f = some fo) :
    ∃ fo', (forumUpdateTrackers db f).findForum f = some fo' ∧
      fo'.topic_count = (topicsOf db.topics f).length := by
  unfold forumUpdateTrackers
  cases hn : db.forums.length + 1 with
  | zero => cases hn
  | succ n =>
    have hstep : ∃ fo1, (forumRecompute db f).findForum f = some fo1 ∧
        fo1.topic_count = (topicsOf db.topics f).length :=
      ⟨_, forumRecompute_findForum_self hf, rfl⟩
    simp only [forumUpdateTrackersAux]
    split
    · exact hstep
    · split
      · exact hstep
      · exact forumUpdateTrackersAux_keeps_count _ _ _ hstep
          (by rw [forumRecompute_topics])

/-! Characterisation of the lifecycle operations. -/

theorem _simple_save_forums (db : DB) (t : Topic) :
    (AbstractTopic._simple_save db t).forums = db.forums := rfl

theorem _simple_save_posts (db : DB) (t : Topic) :
    (AbstractTopic._simple_save db t).posts = db.posts := rfl

theorem _simple_save_findTopic_self (db : DB) (t : Topic) :
    (AbstractTopic._simple_save db t).findTopic t.id = some t :=
  lookupBy_upsertBy_self

theorem forumUpdateTrackers_findTopic (db : DB) (g i : Nat) :
    (forumUpdateTrackers db g).findTopic i = db.findTopic i := by
  unfold DB.findTopic
  rw [forumUpdateTrackers_topics]

theorem forumUpdateTrackers_topicPosts (db : DB) (g tid : Nat) :
    (forumUpdateTrackers db g).topicPosts tid = db.topicPosts tid := by
  unfold DB.topicPosts
  rw [forumUpdateTrackers_posts]

theorem last_post_eq_of_posts {db db2 : DB} {tid : Nat} (h : db2.posts = db.posts) :
    AbstractTopic.last_post db2 tid = AbstractTopic.last_post db tid := by
  unfold AbstractTopic.last_post DB.topicPosts
  rw [h]

theorem first_post_eq_of_posts {db db2 : DB} {tid : Nat} (h : db2.posts = db.posts) :
    AbstractTopic.first_post db2 tid = AbstractTopic.first_post db tid := by
  unfold AbstractTopic.first_post DB.topicPosts
  rw [h]

theorem update_trackers_some {db : DB} {t : Topic} {db2 : DB}
    (h : AbstractTopic.update_trackers db t = some db2) :
    ∃ lp, AbstractTopic.last_post db t.id = some lp ∧
      db2 = forumUpdateTrackers
        (AbstractTopic._simple_save db
          { t with posts_count := (db.topicPosts t.id).length, updated := lp.created })
        t.forumId := by
  unfold AbstractTopic.update_trackers at h
  cases hl : AbstractTopic.last_post db t.id with
  | none => rw [hl] at h; cases h
  | some lp =>
    rw [hl] at h
    cases h
    exact ⟨lp, rfl, rfl⟩

theorem topicPosts_eq_of_posts {db db2 : DB} (h : db2.posts = db.posts) (tid : Nat) :
    db2.topicPosts tid = db.topicPosts tid := by
  unfold DB.topicPosts
  rw [h]

theorem update_trackers_none_of_empty {db : DB} {t : Topic}
    (h : db.topicPosts t.id = []) : AbstractTopic.update_trackers db t = none := by
  unfold AbstractTopic.update_trackers
  rw [last_post_eq_none_iff.mpr h]

theorem update_trackers_isSome_of_nonempty {db : DB} {t : Topic}
    (h : db.topicPosts t.id ≠ []) : (AbstractTopic.update_trackers db t).isSome = true := by
  unfold AbstractTopic.update_trackers
  rcases last_post_isSome h with ⟨lp, hlp⟩
  rw [hlp]
  rfl

theorem update_trackers_result_count {db1 : DB} {t1 : Topic} {db2 : DB}
    (h : AbstractTopic.update_trackers db1 t1 = some db2) :
    ∀ t, db2.findTopic t1.id = some t →
      t.posts_count = (db2.topicPosts t1.id).length := by
  rcases update_trackers_some h with ⟨lp, hlp, rfl⟩
  intro t ht
  rw [forumUpdateTrackers_findTopic] at ht
  have hself := _simple_save_findTopic_self db1
    { t1 with posts_count := (db1.topicPosts t1.id).length, updated := lp.created }
  rw [ht] at hself
  cases hself
  rw [forumUpdateTrackers_topicPosts]
  rfl

/-- C1: for every topic that still exists after a post save or post delete
affecting it, its persisted `posts_count` equals the number of posts attached
to it in the resulting state (`update_trackers` recomputes the counter from
the attached-post count on every such mutation; when the deletion cascades
into a topic deletion, the topic no longer exists and nothing is claimed). -/
theorem posts_count_tracks_topic_posts {db : DB} {p : Post} {db2 : DB}
    (h : AbstractPost.save db p = some db2 ∨ AbstractPost.delete db p = some db2) :
    ∀ t, db2.findTopic p.topicId = some t →
      t.posts_count = (db2.topicPosts p.topicId).length := by
  intro t ht
  rcases h with hs | hd
  · simp only [AbstractPost.save] at hs
    split at hs
    · cases hs
    · rename_i t0 hft
      have h0 : t0.id = p.topicId := (lookupBy_mem_key hft).2
      rw [← h0] at ht ⊢
      split at hs
      · split at hs
        · exact update_trackers_result_count hs t ht
        · exact update_trackers_result_count hs t ht
      · exact update_trackers_result_count hs t ht
  · simp only [AbstractPost.delete] at hd
    split at hd
    · simp only [AbstractTopic.delete] at hd
      split at hd
      · cases hd
      · rename_i t0 hft
        cases hd
        rw [forumUpdateTrackers_findTopic] at ht
        have hn : lookupBy Topic.id (removeBy Topic.id db.topics p.topicId) p.topicId = none :=
          lookupBy_removeBy_self
        simp only [DB.findTopic] at ht
        rw [hn] at ht
        cases ht
    · split at hd
      · cases hd
      · rename_i t0 hft
        have h0 : t0.id = p.topicId := (lookupBy_mem_key hft).2
        rw [← h0] at ht ⊢
        exact update_trackers_result_count hd t ht

/-- C2: after `update_trackers` completes on a topic with at least one post,
the persisted `updated` field equals the creation timestamp of the
chronologically-last post (the maximum of `created` over the topic's posts),
and the last-post reference denotes that post. -/
theorem updated_matches_last_post {db : DB} {t : Topic} {db2 : DB}
    (h : AbstractTopic.update_trackers db t = some db2) :
    ∀ t2, db2.findTopic t.id = some t2 →
      ∃ lp, AbstractTopic.last_post db2 t.id = some lp ∧
        t2.updated = lp.created ∧
        lp ∈ db2.topicPosts t.id ∧
        ∀ q ∈ db2.topicPosts t.id, q.created ≤ lp.created := by
  rcases update_trackers_some h with ⟨lp, hlp, rfl⟩
  intro t2 ht2
  rw [forumUpdateTrackers_findTopic] at ht2
  have hself := _simple_save_findTopic_self db
    { t with posts_count := (db.topicPosts t.id).length, updated := lp.created }
  rw [ht2] at hself
  cases hself
  have hposts : (forumUpdateTrackers
      (AbstractTopic._simple_save db
        { t with posts_count := (db.topicPosts t.id).length, updated := lp.created })
      t.forumId).posts = db.posts := by
    rw [forumUpdateTrackers_posts]
    rfl
  have htp := topicPosts_eq_of_posts hposts t.id
  refine ⟨lp, ?_, rfl, ?_, ?_⟩
  · rw [last_post_eq_of_posts hposts]
    exact hlp
  · rw [htp]
    exact (last_post_spec hlp).1
  · intro q hq
    rw [htp] at hq
    have := (last_post_spec hlp).2 q hq
    unfold keyLeP at this
    omega

/-! Concrete example rows used by the witness theorems. -/

def exForum1 : Forum :=
  { id := 1, parentId := none, ftype := ForumType.forum, topic_count := 1, post_count := 2 }

def exForum2 : Forum :=
  { id := 2, parentId := some 1, ftype := ForumType.forum, topic_count := 0, post_count := 0 }

def exCat3 : Forum :=
  { id := 3, parentId := none, ftype := ForumType.category, topic_count := 0, post_count := 0 }

def exTopic : Topic :=
  { id := 10, forumId := 1, subject := "a", approved := true, posts_count := 2, updated := 5 }

def exPost1 : Post := { id := 100, topicId := 10, subject := "a", approved := true, created := 3 }

def exPost2 : Post := { id := 101, topicId := 10, subject := "b", approved := true, created := 5 }

def exPost3 : Post := { id := 102, topicId := 10, subject := "c", approved := true, created := 9 }

def exDB : DB :=
  { forums := [exForum1, exForum2, exCat3], topics := [exTopic], posts := [exPost1, exPost2] }

def exDBafterSave : DB :=
  { forums := [{ exForum1 with post_count := 3 }, exForum2, exCat3],
    topics := [{ exTopic with posts_count := 3, updated := 9 }],
    posts := [exPost1, exPost2, exPost3] }

/-- Witness for C1: saving a third post into the two-post example topic leaves
the stored `posts_count` equal to the number of attached posts. -/
theorem posts_count_tracks_topic_posts_witness :
    AbstractPost.save exDB exPost3 = some exDBafterSave ∧
    ({ exTopic with posts_count := 3, updated := 9 } : Topic).posts_count =
      (exDBafterSave.topicPosts 10).length :=
  ⟨by decide,
   posts_count_tracks_topic_posts
     (Or.inl (by decide : AbstractPost.save exDB exPost3 = some exDBafterSave))
     { exTopic with posts_count := 3, updated := 9 } (by decide)⟩

/-- Witness for C2: running `update_trackers` on the example topic leaves
`updated` equal to the latest post's creation time. -/
theorem updated_matches_last_post_witness :
    AbstractTopic.update_trackers exDB exTopic = some exDB ∧
    (∃ lp, AbstractTopic.last_post exDB 10 = some lp ∧
      exTopic.updated = lp.created ∧ lp ∈ exDB.topicPosts 10 ∧
      ∀ q ∈ exDB.topicPosts 10, q.created ≤ lp.created) :=
  ⟨by decide,
   updated_matches_last_post
     (by decide : AbstractTopic.update_trackers exDB exTopic = some exDB)
     exTopic (by decide)⟩

/-- C8: `update_trackers` persists the topic through the lightweight
`_simple_save` path.  The theorem exposes the persisted state as exactly a
`_simple_save` followed by the forum rollup — `_simple_save` writes no forum
row and no post row (so it cannot re-enter the reparent-detection logic of the
full `Topic.save`) — and shows the persisted `updated` value is exactly the
creation time of the chronologically-last post (`update_trackers` takes no
save-time input at all: `auto_now` is disabled around the write). -/
theorem update_trackers_uses_simple_save {db : DB} {t : Topic} {db2 : DB}
    (h : AbstractTopic.update_trackers db t = some db2) :
    ∃ lp, AbstractTopic.last_post db t.id = some lp ∧
      (AbstractTopic._simple_save db
        { t with posts_count := (db.topicPosts t.id).length,
                 updated := lp.created }).forums = db.forums ∧
      (AbstractTopic._simple_save db
        { t with posts_count := (db.topicPosts t.id).length,
                 updated := lp.created }).posts = db.posts ∧
      db2 = forumUpdateTrackers
        (AbstractTopic._simple_save db
          { t with posts_count := (db.topicPosts t.id).length, updated := lp.created })
        t.forumId ∧
      ∀ t2, db2.findTopic t.id = some t2 → t2.updated = lp.created := by
  rcases update_trackers_some h with ⟨lp, hlp, rfl⟩
  refine ⟨lp, hlp, rfl, rfl, rfl, ?_⟩
  intro t2 ht2
  rw [forumUpdateTrackers_findTopic] at ht2
  have hself := _simple_save_findTopic_self db
    { t with posts_count := (db.topicPosts t.id).length, updated := lp.created }
  rw [ht2] at hself
  cases hself
  rfl

/-- Witness for C8 at the concrete example topic. -/
theorem update_trackers_uses_simple_save_witness :
    AbstractTopic.update_trackers exDB exTopic = some exDB ∧
    (∃ lp, AbstractTopic.last_post exDB exTopic.id = some lp ∧
      (AbstractTopic._simple_save exDB
        { exTopic with posts_count := (exDB.topicPosts exTopic.id).length,
                       updated := lp.created }).forums = exDB.forums ∧
      (AbstractTopic._simple_save exDB
        { exTopic with posts_count := (exDB.topicPosts exTopic.id).length,
                       updated := lp.created }).posts = exDB.posts ∧
      exDB = forumUpdateTrackers
        (AbstractTopic._simple_save exDB
          { exTopic with posts_count := (exDB.topicPosts exTopic.id).length,
                         updated := lp.created })
        exTopic.forumId ∧
      ∀ t2, exDB.findTopic exTopic.id = some t2 → t2.updated = lp.created) :=
  ⟨by decide,
   update_trackers_uses_simple_save
     (by decide : AbstractTopic.update_trackers exDB exTopic = some exDB)⟩

/-- Every element of a filtered list failing the predicate makes the filter
empty. -/
theorem filter_eq_nil_of_false {p : α → Bool} {l : List α}
    (h : ∀ a ∈ l, p a = false) : l.filter p = [] := by
  induction l with
  | nil => rfl
  | cons a as ih =>
    rw [List.filter_cons, h a (List.mem_cons_self _ _)]
    exact ih (fun x hx => h x (List.mem_cons_of_mem _ hx))

/-- C9: when the search form fails validation, or the read-permission scope
intersected with the explicit forum restriction leaves no permitted forum,
`searchResults` is the empty list.  The function is total — it returns a list
for every input — so no error is raised on these inputs. -/
theorem search_empty_on_invalid_or_unpermitted
    {db : DB} {canRead : Nat → Bool} {matchq : Post → Bool} {sf : List Nat}
    (h : formValid db sf = false ∨ permittedForums db canRead sf = []) :
    searchResults db canRead matchq sf = [] := by
  unfold searchResults
  rcases h with h | h
  · rw [h]
    rfl
  · by_cases hv : formValid db sf
    · rw [if_pos hv]
      apply filter_eq_nil_of_false
      intro q hq
      cases hft : db.findTopic q.topicId with
      | none => rfl
      | some t =>
        rw [h]
        rfl
    · rw [if_neg hv]

/-- Witness for C9: restricting the search to a nonexistent forum id makes
the form invalid and the search result empty. -/
theorem search_empty_on_invalid_or_unpermitted_witness :
    formValid exDB [1000] = false ∧
    searchResults exDB (fun _ => false) (fun _ => true) [1000] = [] :=
  ⟨by decide,
   search_empty_on_invalid_or_unpermitted
     (Or.inl (by decide : formValid exDB [1000] = false))⟩

def exEmptyTopic : Topic :=
  { id := 12, forumId := 1, subject := "e", approved := true, posts_count := 0, updated := 0 }

def exDBempty : DB := { forums := [exForum1, exForum2], topics := [exEmptyTopic], posts := [] }

/-- Counterexample for C10: not every internal call site of `update_trackers`
satisfies the at-least-one-post precondition.  The reparenting branch of
`AbstractTopic.save` (line 137) calls `update_trackers` on the saved topic
without checking its posts; saving a persisted zero-post topic with a changed
forum reaches the `None.created` dereference, so the whole save fails — both
the save and the inner `update_trackers` call evaluate to `none` here. -/
theorem update_trackers_call_site_counterexample :
    AbstractTopic.save exDBempty { exEmptyTopic with forumId := 2 } 42 = none ∧
    AbstractTopic.update_trackers
      (AbstractTopic._simple_save exDBempty { exEmptyTopic with forumId := 2, updated := 42 })
      { exEmptyTopic with forumId := 2, updated := 42 } = none := by decide

/-- C10 amended: `update_trackers` on a topic with zero attached posts fails
(returns `none`, modelling the `AttributeError` on `None.created`) without
persisting anything; the `Post.save` call site always satisfies the
at-least-one-post precondition (the post was just saved), and the
`Post.delete` call site does too (the sole-post case is routed to topic
deletion instead); but the `Topic.save` reparenting call site does not
guarantee it, so the failure is reachable by reparenting an empty topic. -/
theorem update_trackers_empty_topic_safety :
    (∀ (db : DB) (t : Topic), db.topicPosts t.id = [] →
        AbstractTopic.update_trackers db t = none) ∧
    (∀ (db : DB) (p : Post), (db.findTopic p.topicId).isSome = true →
        (AbstractPost.save db p).isSome = true) ∧
    (∀ (db : DB) (p : Post) (t : Topic),
        (db.posts.map Post.id).Nodup →
        p ∈ db.posts →
        db.findTopic p.topicId = some t →
        ¬ (AbstractPost.is_topic_head db p = true ∧ AbstractPost.is_topic_tail db p = true) →
        (AbstractPost.delete db p).isSome = true) := by
  refine ⟨?_, ?_, ?_⟩
  · intro db t h
    exact update_trackers_none_of_empty h
  · intro db p h
    simp only [AbstractPost.save]
    split
    · rename_i hft
      rw [show DB.findTopic { db with posts := upsertBy Post.id db.posts p } p.topicId
            = db.findTopic p.topicId from rfl] at hft
      rw [hft] at h
      cases h
    · rename_i t0 hft
      have h0 : t0.id = p.topicId := (lookupBy_mem_key hft).2
      have hmem : p ∈ DB.topicPosts { db with posts := upsertBy Post.id db.posts p } p.topicId :=
        mem_postsOf.mpr ⟨self_mem_upsertBy, rfl⟩
      have hne : DB.topicPosts { db with posts := upsertBy Post.id db.posts p } p.topicId ≠ [] :=
        List.ne_nil_of_mem hmem
      split
      · split
        · apply update_trackers_isSome_of_nonempty
          rw [show Topic.id { t0 with subject := p.subject, approved := p.approved } = t0.id from rfl,
              h0]
          exact hne
        · apply update_trackers_isSome_of_nonempty
          rw [h0]
          exact hne
      · apply update_trackers_isSome_of_nonempty
        rw [h0]
        exact hne
  · intro db p t hn hp ht hneq
    simp only [AbstractPost.delete]
    rw [if_neg hneq]
    split
    · rename_i hft
      rw [show DB.findTopic { db with posts := removeBy Post.id db.posts p.id } p.topicId
            = db.findTopic p.topicId from rfl] at hft
      rw [ht] at hft
      cases hft
    · rename_i t0 hft
      have h0 : t0.id = p.topicId := (lookupBy_mem_key hft).2
      apply update_trackers_isSome_of_nonempty
      rw [h0]
      by_contra hempty
      have hq : ∃ q ∈ db.topicPosts p.topicId, q.id ≠ p.id := by
        by_contra hall
        push_neg at hall
        apply hneq
        have hpm : p ∈ db.topicPosts p.topicId := mem_postsOf.mpr ⟨hp, rfl⟩
        constructor
        · rcases first_post_isSome (List.ne_nil_of_mem hpm) with ⟨fp, hfp⟩
          unfold AbstractPost.is_topic_head
          rw [hfp]
          exact decide_eq_true (hall fp (first_post_spec hfp).1)
        · rcases last_post_isSome (List.ne_nil_of_mem hpm) with ⟨lp, hlp⟩
          unfold AbstractPost.is_topic_tail
          rw [hlp]
          exact decide_eq_true (hall lp (last_post_spec hlp).1)
      rcases hq with ⟨q, hqm, hqid⟩
      rcases mem_postsOf.mp hqm with ⟨hqdb, hqtid⟩
      have : q ∈ DB.topicPosts { db with posts := removeBy Post.id db.posts p.id } p.topicId :=
        mem_postsOf.mpr ⟨mem_removeBy_of_ne hqdb hqid, hqtid⟩
      rw [hempty] at this
      cases this

/-- Witness for the amended C10 at concrete inputs: the empty example topic
fails, and the two post-mutation call sites succeed. -/
theorem update_trackers_empty_topic_safety_witness :
    AbstractTopic.update_trackers exDBempty exEmptyTopic = none ∧
    (AbstractPost.save exDB exPost3).isSome = true ∧
    (AbstractPost.delete exDB exPost2).isSome = true :=
  ⟨update_trackers_empty_topic_safety.1 exDBempty exEmptyTopic (by decide),
   update_trackers_empty_topic_safety.2.1 exDB exPost3 (by decide),
   update_trackers_empty_topic_safety.2.2 exDB exPost2 exTopic (by decide) (by decide)
     (by decide) (by decide)⟩

/-! C6: the `position` property. -/

theorem postsOf_cons {a : Post} {as : List Post} {tid : Nat} :
    postsOf (a :: as) tid =
      if a.topicId = tid then a :: postsOf as tid else postsOf as tid := rfl

theorem topicsOf_cons {a : Topic} {as : List Topic} {fid : Nat} :
    topicsOf (a :: as) fid =
      if a.forumId = fid then a :: topicsOf as fid else topicsOf as fid := rfl

theorem postsOf_sublist (l : List Post) (tid : Nat) : List.Sublist (postsOf l tid) l := by
  induction l with
  | nil => exact List.Sublist.refl []
  | cons a as ih =>
    rw [postsOf_cons]
    by_cases h : a.topicId = tid
    · rw [if_pos h]
      exact List.Sublist.cons₂ a ih
    · rw [if_neg h]
      exact List.Sublist.cons a ih

/-- The 1-based rank of a post among its topic's posts ordered by creation
time with ties broken by id.  Written from the spec's words (section 3,
derived property `position`), for comparison with the source's `position`. -/
def specRank (db : DB) (p : Post) : Nat :=
  ((db.topicPosts p.topicId).filter (fun q => decide (keyLtP q p))).length + 1

def exTieTopic : Topic :=
  { id := 20, forumId := 1, subject := "t", approved := true, posts_count := 2, updated := 4 }

def exTiePostA : Post := { id := 200, topicId := 20, subject := "t", approved := true, created := 4 }

def exTiePostB : Post := { id := 201, topicId := 20, subject := "u", approved := true, created := 4 }

def exDBtie : DB := { forums := [exForum1], topics := [exTieTopic], posts := [exTiePostA, exTiePostB] }

/-- Counterexample for C6: with two posts sharing a creation timestamp, the
source's `position` does not break the tie by id — both posts get position 1,
while the 1-based rank with ties broken by id gives the higher-id post rank 2. -/
theorem position_ties_counterexample :
    AbstractPost.position exDBtie exTiePostB = 1 ∧
    specRank exDBtie exTiePostB = 2 ∧
    AbstractPost.position exDBtie exTiePostB ≠ specRank exDBtie exTiePostB := by decide

theorem filter_cons_true (q : α → Bool) (a : α) {l : List α} (h : q a = true) :
    (a :: l).filter q = a :: l.filter q := by
  simp [List.filter_cons, h]

theorem filter_cons_false (q : α → Bool) (a : α) {l : List α} (h : q a = false) :
    (a :: l).filter q = l.filter q := by
  simp [List.filter_cons, h]

theorem filter_lt_or_self_length {l : List Post} {p : Post}
    (hn : (l.map Post.id).Nodup) (hp : p ∈ l) :
    (l.filter (fun q => decide (q.created < p.created) || decide (q.id = p.id))).length =
    (l.filter (fun q => decide (q.created < p.created))).length + 1 := by
  induction l with
  | nil => cases hp
  | cons a as ih =>
    rw [List.map_cons, List.nodup_cons] at hn
    rcases List.mem_cons.mp hp with rfl | hp' 
    · have hpa : (fun q => decide (q.created < p.created) || decide (q.id = p.id)) p = true := by
        simp
      have hpb : (fun q => decide (q.created < p.created)) p = false := by
        simp
      rw [filter_cons_true (fun q => decide (q.created < p.created) || decide (q.id = p.id)) p hpa,
          filter_cons_false (fun q => decide (q.created < p.created)) p hpb, List.length_cons]
      have hcongr : as.filter (fun q => decide (q.created < p.created) || decide (q.id = p.id)) =
          as.filter (fun q => decide (q.created < p.created)) := by
        apply List.filter_congr
        intro q hq
        have hqid : q.id ≠ p.id := fun h => hn.1 (h ▸ List.mem_map_of_mem Post.id hq)
        simp [hqid]
      rw [hcongr]
    · have haid : a.id ≠ p.id := fun h => hn.1 (h ▸ List.mem_map_of_mem Post.id hp')
      by_cases hlt : a.created < p.created
      · have hb1 : (fun q => decide (q.created < p.created) || decide (q.id = p.id)) a = true := by
          simp [hlt]
        have hb2 : (fun q => decide (q.created < p.created)) a = true := by
          simp [hlt]
        rw [filter_cons_true (fun q => decide (q.created < p.created) || decide (q.id = p.id)) a hb1,
            filter_cons_true (fun q => decide (q.created < p.created)) a hb2,
            List.length_cons, List.length_cons, ih hn.2 hp']
      · have hb1 : (fun q => decide (q.created < p.created) || decide (q.id = p.id)) a = false := by
          simp [hlt, haid]
        have hb2 : (fun q => decide (q.created < p.created)) a = false := by
          simp [hlt]
        rw [filter_cons_false (fun q => decide (q.created < p.created) || decide (q.id = p.id)) a hb1,
            filter_cons_false (fun q => decide (q.created < p.created)) a hb2, ih hn.2 hp']

/-- C6 amended: `position` equals one plus the number of the topic's posts
with strictly earlier creation time — posts sharing a creation timestamp
share a position, the id breaks no tie (the only use of the id in the source
filter is to count the post itself).  When creation times within the topic
are pairwise distinct, this coincides with the spec's 1-based rank. -/
theorem position_counts_strictly_earlier {db : DB} {p : Post}
    (hn : (db.posts.map Post.id).Nodup) (hp : p ∈ db.posts) :
    AbstractPost.position db p =
      ((db.topicPosts p.topicId).filter (fun q => decide (q.created < p.created))).length + 1 ∧
    ((∀ q1 ∈ db.topicPosts p.topicId, ∀ q2 ∈ db.topicPosts p.topicId,
        q1.created = q2.created → q1 = q2) →
      AbstractPost.position db p = specRank db p) := by
  have hsub := postsOf_sublist db.posts p.topicId
  have hnsub : ((db.topicPosts p.topicId).map Post.id).Nodup :=
    List.Nodup.sublist (List.Sublist.map Post.id hsub) hn
  have hpm : p ∈ db.topicPosts p.topicId := mem_postsOf.mpr ⟨hp, rfl⟩
  constructor
  · exact filter_lt_or_self_length hnsub hpm
  · intro hdist
    have h1 := filter_lt_or_self_length hnsub hpm
    unfold AbstractPost.position at h1 ⊢
    rw [h1]
    unfold specRank
    have hcongr : (db.topicPosts p.topicId).filter (fun q => decide (q.created < p.created)) =
        (db.topicPosts p.topicId).filter (fun q => decide (keyLtP q p)) := by
      apply List.filter_congr
      intro q hq
      by_cases hlt : q.created < p.created
      · have hk : keyLtP q p := Or.inl hlt
        rw [decide_eq_true hlt, decide_eq_true hk]
      · have h2 : ¬ keyLtP q p := by
          intro hk
          rcases hk with hk | ⟨hk1, hk2⟩
          · exact hlt hk
          · have heq := hdist q hq p hpm hk1
            rw [heq] at hk2
            exact Nat.lt_irrefl _ hk2
        rw [decide_eq_false hlt, decide_eq_false h2]
    rw [hcongr]

/-- Witness for the amended C6 at a topic with distinct creation times. -/
theorem position_counts_strictly_earlier_witness :
    AbstractPost.position exDB exPost2 =
      ((exDB.topicPosts exPost2.topicId).filter
        (fun q => decide (q.created < exPost2.created))).length + 1 ∧
    ((∀ q1 ∈ exDB.topicPosts exPost2.topicId, ∀ q2 ∈ exDB.topicPosts exPost2.topicId,
        q1.created = q2.created → q1 = q2) →
      AbstractPost.position exDB exPost2 = specRank exDB exPost2) :=
  position_counts_strictly_earlier
    (by decide : (exDB.posts.map Post.id).Nodup)
    (by decide : exPost2 ∈ exDB.posts)

/-! C7: validation of the topic-forum type. -/

def exTopicInCat : Topic :=
  { id := 13, forumId := 3, subject := "x", approved := true, posts_count := 0, updated := 0 }

def exDBcat : DB := { forums := [exForum1, exForum2, exCat3], topics := [], posts := [] }

/-- Counterexample for C7: saving a topic whose forum is a category raises no
`ValidationError` and persists the topic — `Topic.save` never invokes
`clean`, so the category/link check (which `clean` would indeed fail here)
does not run on a direct save. -/
theorem topic_save_category_counterexample :
    (AbstractTopic.clean exDBcat exTopicInCat).isOk = false ∧
    AbstractTopic.save exDBcat exTopicInCat 7 =
      some { exDBcat with topics := [{ exTopicInCat with updated := 7 }] } ∧
    DB.findTopic { exDBcat with topics := [{ exTopicInCat with updated := 7 }] } 13 =
      some { exTopicInCat with updated := 7 } := by decide

/-- C7 amended: `Topic.clean` rejects exactly the topics whose forum is of
type category or link, raising `ValidationError` — but `Topic.save` does not
invoke `clean`: a direct save of a fresh topic persists it whatever the forum
type.  The rejection happens before persistence only on call paths (the form
layer) that run `clean`, and then the offending topic is indeed never saved. -/
theorem clean_eq {db : DB} {t : Topic} {f : Forum} (hf : db.findForum t.forumId = some f) :
    AbstractTopic.clean db t =
      if f.ftype = ForumType.category ∨ f.ftype = ForumType.link then
        Except.error "A topic can not be associated with a category or a link forum"
      else Except.ok () := by
  unfold AbstractTopic.clean
  rw [hf]

theorem topic_clean_rejects_category_link {db : DB} {t : Topic} {f : Forum} (now : Nat)
    (hf : db.findForum t.forumId = some f) :
    ((AbstractTopic.clean db t = Except.ok ()) ↔
      (f.ftype ≠ ForumType.category ∧ f.ftype ≠ ForumType.link)) ∧
    (db.findTopic t.id = none →
      AbstractTopic.save db t now =
        some { db with topics := db.topics ++ [{ t with updated := now }] } ∧
      DB.findTopic { db with topics := db.topics ++ [{ t with updated := now }] } t.id =
        some { t with updated := now }) := by
  constructor
  · rw [clean_eq hf]
    by_cases hc : f.ftype = ForumType.category ∨ f.ftype = ForumType.link
    · rw [if_pos hc]
      constructor
      · intro h
        cases h
      · intro ⟨h1, h2⟩
        rcases hc with hc | hc
        · exact absurd hc h1
        · exact absurd hc h2
    · rw [if_neg hc]
      push_neg at hc
      exact ⟨fun _ => hc, fun _ => rfl⟩
  · intro hfresh
    have hup : upsertBy Topic.id db.topics ({ t with updated := now } : Topic) =
        db.topics ++ [{ t with updated := now }] := by
      rw [upsertBy]
      rw [show lookupBy Topic.id db.topics (Topic.id ({ t with updated := now } : Topic))
            = db.findTopic t.id from rfl, hfresh]
    constructor
    · simp only [AbstractTopic.save]
      rw [show (db.findTopic t.id) = none from hfresh]
      rw [hup]
    · show lookupBy Topic.id (db.topics ++ [{ t with updated := now }]) t.id = _
      rw [lookupBy_append]
      rw [show lookupBy Topic.id db.topics t.id = none from hfresh]
      rw [lookupBy_cons]
      rw [if_pos rfl]

/-- Witness for the amended C7: a fresh topic in a category forum is rejected
by `clean` yet persisted by a direct save. -/
theorem topic_clean_rejects_category_link_witness :
    (¬ (AbstractTopic.clean exDBcat exTopicInCat = Except.ok ())) ∧
    (AbstractTopic.save exDBcat exTopicInCat 7 =
        some { exDBcat with topics := exDBcat.topics ++ [{ exTopicInCat with updated := 7 }] } ∧
      DB.findTopic
          { exDBcat with topics := exDBcat.topics ++ [{ exTopicInCat with updated := 7 }] }
          exTopicInCat.id =
        some { exTopicInCat with updated := 7 }) :=
  ⟨fun h => by
      have h2 := ((topic_clean_rejects_category_link 7
        (by decide : exDBcat.findForum exTopicInCat.forumId = some exCat3)).1).mp h
      exact h2.1 (by decide),
   (topic_clean_rejects_category_link 7
      (by decide : exDBcat.findForum exTopicInCat.forumId = some exCat3)).2 (by decide)⟩

/-! C5: reparent detection in `Topic.save`. -/

theorem update_trackers_findForum_isSome {db : DB} {t : Topic} {db2 : DB}
    (h : AbstractTopic.update_trackers db t = some db2) (i : Nat) :
    (db2.findForum i).isSome = (db.findForum i).isSome := by
  rcases update_trackers_some h with ⟨lp, hlp, rfl⟩
  rw [forumUpdateTrackers_findForum_isSome]
  rfl

/-- C5: `Topic.save` on an already-persisted topic detects reparenting by
comparing the persisted forum reference (`old_instance`, reloaded by pk before
the save) with the instance's forum after the save.  If unchanged, the save
only writes the topic row: no tracker update runs and the forum table is
untouched.  If changed, the save is exactly `update_trackers` on the saved
topic (which rolls up the new forum's ancestor chain) followed by the
forum-level tracker update started at the old forum reloaded from the
post-save state, leaving the old forum's persisted `topic_count` recomputed
from the final topic table. -/
theorem topic_save_reparent_detection {db : DB} {t old : Topic} {fOld : Forum} (now : Nat)
    (hold : db.findTopic t.id = some old)
    (hfOld : db.findForum old.forumId = some fOld) :
    (old.forumId = t.forumId →
      AbstractTopic.save db t now =
        some { db with topics := upsertBy Topic.id db.topics { t with updated := now } } ∧
      ∀ db3, AbstractTopic.save db t now = some db3 → db3.forums = db.forums) ∧
    (old.forumId ≠ t.forumId →
      AbstractTopic.save db t now =
        (match AbstractTopic.update_trackers
            { db with topics := upsertBy Topic.id db.topics { t with updated := now } }
            { t with updated := now } with
         | none => none
         | some db2 => some (forumUpdateTrackers db2 old.forumId)) ∧
      ∀ db3, AbstractTopic.save db t now = some db3 →
        ∃ fo, db3.findForum old.forumId = some fo ∧
          fo.topic_count = (topicsOf db3.topics old.forumId).length) := by
  constructor
  · intro heq
    have hs : AbstractTopic.save db t now =
        some { db with topics := upsertBy Topic.id db.topics { t with updated := now } } := by
      simp only [AbstractTopic.save, hold]
      rw [if_neg (show ¬ old.forumId ≠ t.forumId from fun hC => hC heq)]
    refine ⟨hs, ?_⟩
    intro db3 h3
    rw [hs] at h3
    cases h3
    rfl
  · intro hne
    have hs : AbstractTopic.save db t now =
        (match AbstractTopic.update_trackers
            { db with topics := upsertBy Topic.id db.topics { t with updated := now } }
            { t with updated := now } with
         | none => none
         | some db2 => some (forumUpdateTrackers db2 old.forumId)) := by
      simp only [AbstractTopic.save, hold]
      rw [if_pos hne]
    refine ⟨hs, ?_⟩
    intro db3 h3
    rw [hs] at h3
    cases hut : AbstractTopic.update_trackers
        { db with topics := upsertBy Topic.id db.topics { t with updated := now } }
        { t with updated := now } with
    | none =>
      rw [hut] at h3
      cases h3
    | some db2 =>
      rw [hut] at h3
      cases h3
      have hex : (db2.findForum old.forumId).isSome = true := by
        rw [update_trackers_findForum_isSome hut old.forumId]
        rw [show DB.findForum
              { db with topics := upsertBy Topic.id db.topics { t with updated := now } }
              old.forumId = db.findForum old.forumId from rfl]
        rw [hfOld]
        rfl
      cases hfo2 : db2.findForum old.forumId with
      | none =>
        rw [hfo2] at hex
        cases hex
      | some fo2 =>
        rcases forumUpdateTrackers_recomputes_count hfo2 with ⟨fo3, hfo3, hcount⟩
        refine ⟨fo3, hfo3, ?_⟩
        rw [hcount]
        rw [show (forumUpdateTrackers db2 old.forumId).topics = db2.topics from
          forumUpdateTrackers_topics db2 old.forumId]

def exTopicMoved : Topic := { exTopic with forumId := 2 }

/-- Witness for C5 at a concrete reparenting: topic 10 moves from forum 1 to
forum 2. -/
theorem topic_save_reparent_detection_witness :
    (exTopic.forumId = exTopicMoved.forumId →
      AbstractTopic.save exDB exTopicMoved 42 =
        some { exDB with
                 topics := upsertBy Topic.id exDB.topics { exTopicMoved with updated := 42 } } ∧
      ∀ db3, AbstractTopic.save exDB exTopicMoved 42 = some db3 → db3.forums = exDB.forums) ∧
    (exTopic.forumId ≠ exTopicMoved.forumId →
      AbstractTopic.save exDB exTopicMoved 42 =
        (match AbstractTopic.update_trackers
            { exDB with
                topics := upsertBy Topic.id exDB.topics { exTopicMoved with updated := 42 } }
            { exTopicMoved with updated := 42 } with
         | none => none
         | some db2 => some (forumUpdateTrackers db2 exTopic.forumId)) ∧
      ∀ db3, AbstractTopic.save exDB exTopicMoved 42 = some db3 →
        ∃ fo, db3.findForum exTopic.forumId = some fo ∧
          fo.topic_count = (topicsOf db3.topics exTopic.forumId).length) :=
  topic_save_reparent_detection 42
    (by decide : exDB.findTopic exTopicMoved.id = some exTopic)
    (by decide : exDB.findForum exTopic.forumId = some exForum1)

/-! C3: the topic mirrors its first post's subject and approved flag. -/

theorem keyLeP_congr {a b c : Post} (h : keyLeP a b) (hc : b.created = c.created)
    (hi : b.id = c.id) : keyLeP a c := by
  unfold keyLeP at h ⊢
  omega

theorem is_topic_head_eq_true {db : DB} {p : Post} :
    AbstractPost.is_topic_head db p = true ↔
      ∃ fp, AbstractTopic.first_post db p.topicId = some fp ∧ fp.id = p.id := by
  unfold AbstractPost.is_topic_head
  cases hf : AbstractTopic.first_post db p.topicId with
  | none =>
    constructor
    · intro h
      cases h
    · rintro ⟨fp, hfp, _⟩
      cases hfp
  | some fp =>
    constructor
    · intro h
      exact ⟨fp, rfl, of_decide_eq_true h⟩
    · rintro ⟨fp2, hfp2, hid⟩
      cases hfp2
      exact decide_eq_true hid

theorem is_topic_tail_eq_true {db : DB} {p : Post} :
    AbstractPost.is_topic_tail db p = true ↔
      ∃ lp, AbstractTopic.last_post db p.topicId = some lp ∧ lp.id = p.id := by
  unfold AbstractPost.is_topic_tail
  cases hf : AbstractTopic.last_post db p.topicId with
  | none =>
    constructor
    · intro h
      cases h
    · rintro ⟨lp, hlp, _⟩
      cases hlp
  | some lp =>
    constructor
    · intro h
      exact ⟨lp, rfl, of_decide_eq_true h⟩
    · rintro ⟨lp2, hlp2, hid⟩
      cases hlp2
      exact decide_eq_true hid

theorem update_trackers_mirrors {db1 : DB} {t1 : Topic} {db2 : DB} {tid : Nat}
    (hsave : AbstractTopic.update_trackers db1 t1 = some db2)
    (hid : t1.id = tid) :
    db2.posts = db1.posts ∧
    ∀ t2, db2.findTopic tid = some t2 →
      t2.subject = t1.subject ∧ t2.approved = t1.approved := by
  rcases update_trackers_some hsave with ⟨lp, hlp, rfl⟩
  refine ⟨by rw [forumUpdateTrackers_posts]; rfl, ?_⟩
  intro t2 ht2
  rw [forumUpdateTrackers_findTopic] at ht2
  have hkey : DB.findTopic
      (AbstractTopic._simple_save db1
        { t1 with posts_count := (db1.topicPosts t1.id).length, updated := lp.created }) tid =
      some { t1 with posts_count := (db1.topicPosts t1.id).length, updated := lp.created } := by
    rw [← hid]
    exact _simple_save_findTopic_self db1 _
  rw [hkey] at ht2
  cases ht2
  exact ⟨rfl, rfl⟩

/-- C3: after a `Post.save` on a post of topic T, T's persisted subject equals
the subject of T's chronologically-first post and T's persisted approved flag
equals that post's approved flag, provided the mirror invariant held before
the save, post ids are unique, and the save does not alter the `created`
timestamp of an existing row (`auto_now_add` semantics).  The mirrored fields
are changed only on the in-memory topic and reach the table through the
`_simple_save` inside the subsequent `update_trackers`, not through a save of
their own. -/
theorem topic_mirrors_first_post {db : DB} {p : Post} {t : Topic} {db2 : DB}
    (hn : (db.posts.map Post.id).Nodup)
    (hcreated : ∀ q ∈ db.posts, q.id = p.id → q.created = p.created)
    (ht : db.findTopic p.topicId = some t)
    (hinv : ∀ fp, AbstractTopic.first_post db p.topicId = some fp →
              t.subject = fp.subject ∧ t.approved = fp.approved)
    (hsave : AbstractPost.save db p = some db2) :
    ∀ t2 fp2, db2.findTopic p.topicId = some t2 →
      AbstractTopic.first_post db2 p.topicId = some fp2 →
      t2.subject = fp2.subject ∧ t2.approved = fp2.approved := by
  intro t2 fp2 ht2 hfp2
  have hn1 : ((upsertBy Post.id db.posts p).map Post.id).Nodup := nodup_map_key_upsertBy hn
  have hpmem1 : p ∈ upsertBy Post.id db.posts p := self_mem_upsertBy
  simp only [AbstractPost.save] at hsave
  split at hsave
  · cases hsave
  · rename_i t0 hft
    have ht0 : t0 = t := by
      rw [show DB.findTopic { db with posts := upsertBy Post.id db.posts p } p.topicId
            = db.findTopic p.topicId from rfl, ht] at hft
      cases hft
      rfl
    subst ht0
    have hid0 : t0.id = p.topicId := (lookupBy_mem_key hft).2
    split at hsave
    · rename_i hhead
      -- the saved post is the topic head: its subject/approved are mirrored
      split at hsave
      · -- mirrored values differ: the topic instance is updated in memory
        rcases update_trackers_mirrors hsave hid0 with ⟨hposts, hmir⟩
        rcases hmir t2 ht2 with ⟨hs2, ha2⟩
        have hfp2b : AbstractTopic.first_post
            { db with posts := upsertBy Post.id db.posts p } p.topicId = some fp2 := by
          rw [← first_post_eq_of_posts hposts]
          exact hfp2
        rcases is_topic_head_eq_true.mp hhead with ⟨fp, hfp, hfpid⟩
        rw [hfp2b] at hfp
        cases hfp
        have hfp2p : fp2 = p := by
          apply mem_of_nodup_key_eq hn1 ?_ hpmem1 hfpid
          exact (mem_postsOf.mp (first_post_spec hfp2b).1).1
        rw [hfp2p]
        exact ⟨hs2, ha2⟩
      · -- the head's subject and approved already match the topic's
        rename_i hsame
        push_neg at hsame
        rcases update_trackers_mirrors hsave hid0 with ⟨hposts, hmir⟩
        rcases hmir t2 ht2 with ⟨hs2, ha2⟩
        have hfp2b : AbstractTopic.first_post
            { db with posts := upsertBy Post.id db.posts p } p.topicId = some fp2 := by
          rw [← first_post_eq_of_posts hposts]
          exact hfp2
        rcases is_topic_head_eq_true.mp hhead with ⟨fp, hfp, hfpid⟩
        rw [hfp2b] at hfp
        cases hfp
        have hfp2p : fp2 = p := by
          apply mem_of_nodup_key_eq hn1 ?_ hpmem1 hfpid
          exact (mem_postsOf.mp (first_post_spec hfp2b).1).1
        rw [hfp2p, hs2, ha2, hsame.1, hsame.2]
        exact ⟨rfl, rfl⟩
    · -- the saved post is not the topic head: the head is an unchanged row
      rename_i hnothead
      rcases update_trackers_mirrors hsave hid0 with ⟨hposts, hmir⟩
      rcases hmir t2 ht2 with ⟨hs2, ha2⟩
      have hfp2b : AbstractTopic.first_post
          { db with posts := upsertBy Post.id db.posts p } p.topicId = some fp2 := by
        rw [← first_post_eq_of_posts hposts]
        exact hfp2
      have hfp2id : fp2.id ≠ p.id := by
        intro hcontra
        exact hnothead (is_topic_head_eq_true.mpr ⟨fp2, hfp2b, hcontra⟩)
      rcases first_post_spec hfp2b with ⟨hfp2mem, hfp2min⟩
      rcases mem_postsOf.mp hfp2mem with ⟨hfp2up, hfp2tid⟩
      have hfp2db : fp2 ∈ db.posts := by
        rcases mem_upsertBy hfp2up with rfl | ⟨hmem, _⟩
        · exact absurd rfl hfp2id
        · exact hmem
      have hfp2dbm : fp2 ∈ db.topicPosts p.topicId := mem_postsOf.mpr ⟨hfp2db, hfp2tid⟩
      rcases first_post_isSome (List.ne_nil_of_mem hfp2dbm) with ⟨fpOld, hfpOld⟩
      rcases first_post_spec hfpOld with ⟨hOldMem, hOldMin⟩
      rcases mem_postsOf.mp hOldMem with ⟨hOldDb, hOldTid⟩
      have hOldLe : keyLeP fpOld fp2 := hOldMin fp2 hfp2dbm
      have hfpOld2 : fpOld = fp2 := by
        by_cases hOldId : fpOld.id = p.id
        · -- the old head shares the saved post's id: its row was replaced by p,
          -- which has the same sort key, so the new head would be p — impossible
          exfalso
          have hOldCreated : fpOld.created = p.created := hcreated fpOld hOldDb hOldId
          have hpmemtp : p ∈ DB.topicPosts
              { db with posts := upsertBy Post.id db.posts p } p.topicId :=
            mem_postsOf.mpr ⟨hpmem1, rfl⟩
          have h1 : keyLeP fp2 p := hfp2min p hpmemtp
          have h2 : keyLeP fp2 fpOld := keyLeP_congr h1 hOldCreated.symm hOldId.symm
          have h3 := keyLeP_antisymm_key h2 hOldLe
          exact hfp2id (h3.2.symm ▸ hOldId)
        · have hOldUp : fpOld ∈ upsertBy Post.id db.posts p := mem_upsertBy_of_ne hOldDb hOldId
          have hOldUpm : fpOld ∈ DB.topicPosts
              { db with posts := upsertBy Post.id db.posts p } p.topicId :=
            mem_postsOf.mpr ⟨hOldUp, hOldTid⟩
          have h1 : keyLeP fp2 fpOld := hfp2min fpOld hOldUpm
          have h3 := keyLeP_antisymm_key h1 hOldLe
          exact mem_of_nodup_key_eq hn1 hOldUp hfp2up h3.2.symm
      rcases hinv fpOld hfpOld with ⟨hsOld, haOld⟩
      rw [hfpOld2] at hsOld haOld
      rw [hs2, ha2, hsOld, haOld]
      exact ⟨rfl, rfl⟩

def exHeadEdited : Post := { id := 100, topicId := 10, subject := "z", approved := true, created := 3 }

def exDBafterHeadEdit : DB :=
  { forums := [exForum1, exForum2, exCat3],
    topics := [{ exTopic with subject := "z" }],
    posts := [exHeadEdited, exPost2] }

/-- Witness for C3: editing the head post's subject re-mirrors the topic
subject. -/
theorem topic_mirrors_first_post_witness :
    AbstractPost.save exDB exHeadEdited = some exDBafterHeadEdit ∧
    (({ exTopic with subject := "z" } : Topic).subject = exHeadEdited.subject ∧
     ({ exTopic with subject := "z" } : Topic).approved = exHeadEdited.approved) :=
  ⟨by decide,
   topic_mirrors_first_post (by decide) (by decide)
     (by decide : exDB.findTopic exHeadEdited.topicId = some exTopic)
     (fun fp hfp => by
        have h2 : AbstractTopic.first_post exDB exHeadEdited.topicId = some exPost1 := by decide
        rw [h2] at hfp
        cases hfp
        exact ⟨rfl, rfl⟩)
     (by decide : AbstractPost.save exDB exHeadEdited = some exDBafterHeadEdit)
     { exTopic with subject := "z" } exHeadEdited (by decide) (by decide)⟩

/-! C4: deleting the sole post of a topic. -/

theorem removeBy_eq_self {key : α → Nat} {l : List α} {i : Nat}
    (h : ∀ x ∈ l, key x ≠ i) : removeBy key l i = l := by
  induction l with
  | nil => rfl
  | cons a as ih =>
    rw [removeBy_cons, if_neg (h a (List.mem_cons_self _ _))]
    rw [ih (fun x hx => h x (List.mem_cons_of_mem _ hx))]

theorem topicsOf_removeBy_length {l : List Topic} {tid : Nat} {t : Topic}
    (hn : (l.map Topic.id).Nodup) (hl : lookupBy Topic.id l tid = some t) :
    (topicsOf (removeBy Topic.id l tid) t.forumId).length + 1 =
      (topicsOf l t.forumId).length := by
  induction l with
  | nil => cases hl
  | cons a as ih =>
    rw [List.map_cons, List.nodup_cons] at hn
    rw [lookupBy_cons] at hl
    rw [removeBy_cons]
    by_cases ha : a.id = tid
    · rw [if_pos ha] at hl
      rw [if_pos ha]
      cases hl
      have hrm : removeBy Topic.id as tid = as := by
        apply removeBy_eq_self
        intro x hx hxid
        apply hn.1
        rw [ha, ← hxid]
        exact List.mem_map_of_mem Topic.id hx
      rw [hrm, topicsOf_cons, if_pos rfl, List.length_cons]
    · rw [if_neg ha] at hl
      rw [if_neg ha]
      rw [topicsOf_cons, topicsOf_cons]
      by_cases haf : a.forumId = t.forumId
      · rw [if_pos haf, if_pos haf, List.length_cons, List.length_cons]
        have := ih hn.2 hl
        omega
      · rw [if_neg haf, if_neg haf]
        exact ih hn.2 hl

theorem eq_singleton_of_all_eq {l : List α} {a : α} (hnd : l.Nodup) (hmem : a ∈ l)
    (hall : ∀ x ∈ l, x = a) : l = [a] := by
  cases l with
  | nil => cases hmem
  | cons b bs =>
    have hb : b = a := hall b (List.mem_cons_self _ _)
    subst hb
    rw [List.nodup_cons] at hnd
    cases bs with
    | nil => rfl
    | cons c cs =>
      have hc : c = b := hall c (List.mem_cons_of_mem _ (List.mem_cons_self _ _))
      exact absurd (by rw [← hc]; exact List.mem_cons_self c cs) (hc ▸ hnd.1)

theorem forumUpdateTrackers_findPost (db : DB) (g i : Nat) :
    (forumUpdateTrackers db g).findPost i = db.findPost i := by
  unfold DB.findPost
  rw [forumUpdateTrackers_posts]

theorem update_trackers_posts_eq {db : DB} {t : Topic} {db2 : DB}
    (h : AbstractTopic.update_trackers db t = some db2) : db2.posts = db.posts := by
  rcases update_trackers_some h with ⟨lp, hlp, rfl⟩
  rw [forumUpdateTrackers_posts]
  rfl

theorem update_trackers_findTopic_isSome {db : DB} {t : Topic} {db2 : DB}
    (h : AbstractTopic.update_trackers db t = some db2) :
    (db2.findTopic t.id).isSome = true := by
  rcases update_trackers_some h with ⟨lp, hlp, rfl⟩
  rw [forumUpdateTrackers_findTopic]
  have h6 : DB.findTopic (AbstractTopic._simple_save db
      { t with posts_count := (db.topicPosts t.id).length, updated := lp.created }) t.id =
      some { t with posts_count := (db.topicPosts t.id).length, updated := lp.created } :=
    _simple_save_findTopic_self db _
  rw [h6]
  rfl

/-- C4: for a persisted post that is simultaneously the head and the tail of
its topic — equivalently, the topic's only post — `Post.delete` routes to
`Topic.delete` (which deletes the topic together with its posts and triggers
the forum rollup, leaving the forum's recomputed `topic_count` one less than a
previously-consistent stored value); for every other post, `Post.delete`
removes only that post row and then runs `update_trackers` on the topic. -/
theorem delete_sole_post_routes_to_topic_delete {db : DB} {p : Post} {t : Topic} {f : Forum}
    (hnp : (db.posts.map Post.id).Nodup)
    (hnt : (db.topics.map Topic.id).Nodup)
    (hp : p ∈ db.posts)
    (ht : db.findTopic p.topicId = some t)
    (hf : db.findForum t.forumId = some f) :
    ((AbstractPost.is_topic_head db p = true ∧ AbstractPost.is_topic_tail db p = true) ↔
        db.topicPosts p.topicId = [p]) ∧
    ((AbstractPost.is_topic_head db p = true ∧ AbstractPost.is_topic_tail db p = true) →
      AbstractPost.delete db p = AbstractTopic.delete db p.topicId ∧
      ∀ db2, AbstractPost.delete db p = some db2 →
        db2.findTopic p.topicId = none ∧
        db2.findPost p.id = none ∧
        (f.topic_count = (topicsOf db.topics t.forumId).length →
          ∃ f2, db2.findForum t.forumId = some f2 ∧ f2.topic_count + 1 = f.topic_count)) ∧
    (¬ (AbstractPost.is_topic_head db p = true ∧ AbstractPost.is_topic_tail db p = true) →
      AbstractPost.delete db p =
        AbstractTopic.update_trackers { db with posts := removeBy Post.id db.posts p.id } t ∧
      ∀ db2, AbstractPost.delete db p = some db2 →
        db2.posts = removeBy Post.id db.posts p.id ∧
        (db2.findTopic p.topicId).isSome = true) := by
  have hidt : t.id = p.topicId := (lookupBy_mem_key ht).2
  refine ⟨?_, ?_, ?_⟩
  · constructor
    · rintro ⟨hh, htl⟩
      rcases is_topic_head_eq_true.mp hh with ⟨fp, hfp, hfpid⟩
      rcases is_topic_tail_eq_true.mp htl with ⟨lp, hlp, hlpid⟩
      rcases first_post_spec hfp with ⟨hfpm, hfpmin⟩
      rcases last_post_spec hlp with ⟨hlpm, hlpmax⟩
      have hfpp : fp = p :=
        mem_of_nodup_key_eq hnp (mem_postsOf.mp hfpm).1 hp hfpid
      have hlpp : lp = p :=
        mem_of_nodup_key_eq hnp (mem_postsOf.mp hlpm).1 hp hlpid
      have hpm : p ∈ db.topicPosts p.topicId := mem_postsOf.mpr ⟨hp, rfl⟩
      apply eq_singleton_of_all_eq
      · exact List.Nodup.sublist (postsOf_sublist db.posts p.topicId)
          (List.Nodup.of_map _ hnp)
      · exact hpm
      · intro q hq
        have h1 : keyLeP p q := hfpp ▸ hfpmin q hq
        have h2 : keyLeP q p := hlpp ▸ hlpmax q hq
        have h3 := keyLeP_antisymm_key h2 h1
        exact mem_of_nodup_key_eq hnp (mem_postsOf.mp hq).1 hp h3.2
    · intro hsingle
      have hfp : AbstractTopic.first_post db p.topicId = some p := by
        unfold AbstractTopic.first_post
        rw [hsingle]
        rfl
      have hlp : AbstractTopic.last_post db p.topicId = some p := by
        unfold AbstractTopic.last_post
        rw [hsingle]
        rfl
      exact ⟨is_topic_head_eq_true.mpr ⟨p, hfp, rfl⟩,
             is_topic_tail_eq_true.mpr ⟨p, hlp, rfl⟩⟩
  · intro hht
    have heq : AbstractPost.delete db p = AbstractTopic.delete db p.topicId := by
      simp only [AbstractPost.delete]
      rw [if_pos hht]
    refine ⟨heq, ?_⟩
    intro db2 h2
    rw [heq] at h2
    simp only [AbstractTopic.delete, ht] at h2
    cases h2
    refine ⟨?_, ?_, ?_⟩
    · rw [forumUpdateTrackers_findTopic]
      exact lookupBy_removeBy_self
    · rw [forumUpdateTrackers_findPost]
      apply lookupBy_eq_none_iff.mpr
      intro x hx
      rcases List.mem_filter.mp hx with ⟨hxdb, hxq⟩
      have hxt : x.topicId ≠ p.topicId := of_decide_eq_true hxq
      intro hxid
      exact hxt (by rw [mem_of_nodup_key_eq hnp hxdb hp hxid])
    · intro hcons
      have hf1 : DB.findForum
          { db with topics := removeBy Topic.id db.topics p.topicId,
                    posts := db.posts.filter (fun q => decide (q.topicId ≠ p.topicId)) }
          t.forumId = some f := hf
      rcases forumUpdateTrackers_recomputes_count hf1 with ⟨f2, hf2, hcnt⟩
      refine ⟨f2, hf2, ?_⟩
      rw [hcnt, hcons]
      exact topicsOf_removeBy_length hnt ht
  · intro hnot
    have heq : AbstractPost.delete db p =
        AbstractTopic.update_trackers { db with posts := removeBy Post.id db.posts p.id } t := by
      simp only [AbstractPost.delete]
      rw [if_neg hnot]
      rw [show DB.findTopic { db with posts := removeBy Post.id db.posts p.id } p.topicId
            = db.findTopic p.topicId from rfl]
      rw [ht]
    refine ⟨heq, ?_⟩
    intro db2 h2
    rw [heq] at h2
    constructor
    · rw [update_trackers_posts_eq h2]
    · rw [← hidt]
      exact update_trackers_findTopic_isSome h2

def exSoloTopic : Topic :=
  { id := 11, forumId := 2, subject := "s", approved := true, posts_count := 1, updated := 7 }

def exSoloPost : Post := { id := 103, topicId := 11, subject := "s", approved := true, created := 7 }

def exDBsolo : DB :=
  { forums := [exForum1, exForum2], topics := [exTopic, exSoloTopic],
    posts := [exPost1, exPost2, exSoloPost] }

/-- Witness for C4 at a concrete sole-post deletion: deleting the only post of
topic 11 deletes the topic and decrements forum 2's topic count. -/
theorem delete_sole_post_routes_to_topic_delete_witness :
    ((AbstractPost.is_topic_head exDBsolo exSoloPost = true ∧
        AbstractPost.is_topic_tail exDBsolo exSoloPost = true) ↔
      exDBsolo.topicPosts exSoloPost.topicId = [exSoloPost]) ∧
    ((AbstractPost.is_topic_head exDBsolo exSoloPost = true ∧
        AbstractPost.is_topic_tail exDBsolo exSoloPost = true) →
      AbstractPost.delete exDBsolo exSoloPost = AbstractTopic.delete exDBsolo exSoloPost.topicId ∧
      ∀ db2, AbstractPost.delete exDBsolo exSoloPost = some db2 →
        db2.findTopic exSoloPost.topicId = none ∧
        db2.findPost exSoloPost.id = none ∧
        (exForum2.topic_count = (topicsOf exDBsolo.topics exSoloTopic.forumId).length →
          ∃ f2, db2.findForum exSoloTopic.forumId = some f2 ∧
            f2.topic_count + 1 = exForum2.topic_count)) ∧
    (¬ (AbstractPost.is_topic_head exDBsolo exSoloPost = true ∧
        AbstractPost.is_topic_tail exDBsolo exSoloPost = true) →
      AbstractPost.delete exDBsolo exSoloPost =
        AbstractTopic.update_trackers
          { exDBsolo with posts := removeBy Post.id exDBsolo.posts exSoloPost.id } exSoloTopic ∧
      ∀ db2, AbstractPost.delete exDBsolo exSoloPost = some db2 →
        db2.posts = removeBy Post.id exDBsolo.posts exSoloPost.id ∧
        (db2.findTopic exSoloPost.topicId).isSome = true) :=
  delete_sole_post_routes_to_topic_delete (by decide) (by decide) (by decide)
    (by decide : exDBsolo.findTopic exSoloPost.topicId = some exSoloTopic)
    (by decide : exDBsolo.findForum exSoloTopic.forumId = some exForum2)

end Machina
